import Mathlib

/-!
Verification of the guyzip DEFLATE encoder (a Rust gzip compressor).

This file gives a shallow embedding, in Lean, of the encoder's core:
the Huffman utilities (`src/huffman.rs`), the LZ77 tokenizer and match
finder (`src/deflate/lempel_ziv.rs`), the block splitter
(`src/deflate/block_splitter.rs`) and the bit-stream writer / orchestrator
(`src/deflate.rs`), together with theorems settling the frozen claims
about this code.

Modelling conventions:
- bytes and machine integers are `Nat`, with `% 2^w` applied exactly where
  the Rust code can overflow (`u32` rotations / xors, `usize` wrapping
  subtraction in release builds);
- Rust operations that can panic (checked indexing, `unwrap`, checked
  arithmetic in the places a claim is about) are modelled with `Option` /
  `Except`: a `none` / `.error` result marks the panic;
- `HashMap` / `VecDeque` state is modelled with association lists whose
  observable lookup behaviour matches the Rust containers (`push_front` is
  `cons`, `pop_back` is `dropLast` / `getLast`);
- loops are structural recursions, with an explicit fuel argument where the
  Rust loop is governed by a mutable condition; fuel is always chosen at
  call sites so that exhaustion is unreachable, and exhaustion is a
  distinguished `Except` error so no claim can be validated by it.
-/

namespace Guyzip

/-- Token type from `src/deflate.rs`: `Literal(u8)` or `Repeat(len, dist)`. -/
inductive Token where
  | literal (b : Nat)
  | repeat (len : Nat) (dist : Nat)
deriving DecidableEq, Repr

/-- The number of input bytes a token covers (1 for a literal, `len` for a repeat). -/
def Token.coverLen : Token → Nat
  | .literal _ => 1
  | .repeat len _ => len

/-- The `LEN_TO_CODE` table of `deflate_code_of_len` in `src/deflate.rs`:
entries `(len start, len end, extra bits, code)`. -/
def LEN_TO_CODE : List (Nat × Nat × Nat × Nat) :=
  [(3, 4, 0, 257), (4, 5, 0, 258), (5, 6, 0, 259), (6, 7, 0, 260),
   (7, 8, 0, 261), (8, 9, 0, 262), (9, 10, 0, 263), (10, 11, 0, 264),
   (11, 13, 1, 265), (13, 15, 1, 266), (15, 17, 1, 267), (17, 19, 1, 268),
   (19, 23, 2, 269), (23, 27, 2, 270), (27, 31, 2, 271), (31, 35, 2, 272),
   (35, 43, 3, 273), (43, 51, 3, 274), (51, 59, 3, 275), (59, 67, 3, 276),
   (67, 83, 4, 277), (83, 99, 4, 278), (99, 115, 4, 279), (115, 131, 4, 280),
   (131, 163, 5, 281), (163, 195, 5, 282), (195, 227, 5, 283), (227, 258, 5, 284),
   (258, 259, 0, 285)]

/-- The `DIST_TO_CODE` table of `deflate_code_of_dist` in `src/deflate.rs`:
entries `(dist start, dist end, extra bits, code)`. -/
def DIST_TO_CODE : List (Nat × Nat × Nat × Nat) :=
  [(1, 2, 0, 0), (2, 3, 0, 1), (3, 4, 0, 2), (4, 5, 0, 3),
   (5, 7, 1, 4), (7, 9, 1, 5), (9, 13, 2, 6), (13, 17, 2, 7),
   (17, 25, 3, 8), (25, 33, 3, 9), (33, 49, 4, 10), (49, 65, 4, 11),
   (65, 97, 5, 12), (97, 129, 5, 13), (129, 193, 6, 14), (193, 257, 6, 15),
   (257, 385, 7, 16), (385, 513, 7, 17), (513, 769, 8, 18), (769, 1025, 8, 19),
   (1025, 1537, 9, 20), (1537, 2049, 9, 21), (2049, 3073, 10, 22), (3073, 4097, 10, 23),
   (4097, 6145, 11, 24), (6145, 8193, 11, 25), (8193, 12289, 12, 26), (12289, 16385, 12, 27),
   (16385, 24577, 13, 28), (24577, 32769, 13, 29)]

/-- Walk a `(start, end, extra bits, code)` table and return
`(value - start, extra bits, code)` for the first row with `value < end`,
as the loops of `deflate_code_of_len` / `deflate_code_of_dist` do.
`none` models the `panic!` reached when no row matches. -/
def tableLookup : List (Nat × Nat × Nat × Nat) → Nat → Option (Nat × Nat × Nat)
  | [], _ => none
  | (s, e, xb, c) :: rest, v => if v < e then some (v - s, xb, c) else tableLookup rest v

/-- `deflate_code_of_len` from `src/deflate.rs`; `none` is the `panic!("invalid len")`. -/
def deflate_code_of_len (len : Nat) : Option (Nat × Nat × Nat) :=
  tableLookup LEN_TO_CODE len

/-- `deflate_code_of_dist` from `src/deflate.rs`; `none` is the `panic!("invalid dist")`. -/
def deflate_code_of_dist (dist : Nat) : Option (Nat × Nat × Nat) :=
  tableLookup DIST_TO_CODE dist

/-- `size_of_token` from `src/deflate/lempel_ziv.rs`: the bit-size heuristic
used by the optimal parser.  `none` models the panics of the code tables. -/
def size_of_token : Token → Option Nat
  | .literal _ => some 8
  | .repeat len dist => do
      let (_, xl, _) ← deflate_code_of_len len
      let (_, xd, _) ← deflate_code_of_dist dist
      pure ((xl + 8) + (xd + 5))

/-! ## Huffman utilities (`src/huffman.rs`) -/

/-- `HuffmanCode` from `src/huffman.rs`: a code and its bit length. -/
structure HuffmanCode where
  code : Nat
  length : Nat
deriving DecidableEq, Repr

/-- `LITERAL_FIXED_CODES` from `src/huffman.rs` (288 code lengths). -/
def LITERAL_FIXED_CODES : List Nat :=
  List.replicate 144 8 ++ List.replicate 112 9 ++ List.replicate 24 7 ++ List.replicate 8 8

/-- `DISTANCE_FIXED_CODES` from `src/huffman.rs` (32 code lengths of 5). -/
def DISTANCE_FIXED_CODES : List Nat := List.replicate 32 5

/-- Count how many entries of `lengths` equal `bl` (the `bl_count` array of
`calc_codes`, viewed as a function). -/
def blCount (lengths : List Nat) (bl : Nat) : Nat :=
  (lengths.filter (fun l => l = bl)).length

/-- The `next_code` table of `calc_codes` just after the first two loops:
`next_code[0] = 0` and `next_code[bl] = (next_code[bl-1] + bl_count[bl-1]) << 1`,
with `bl_count[0]` forced to zero. -/
def nextCode0 (lengths : List Nat) : Nat → Nat
  | 0 => 0
  | bl + 1 => (nextCode0 lengths bl + if bl = 0 then 0 else blCount lengths bl) * 2

/-- One step of the code-reversal loop of `calc_codes`:
`new_code <<= 1; new_code |= code & 1; code >>= 1`, run `n` times. -/
def bitReverseAux (code : Nat) (n : Nat) (acc : Nat) : Nat :=
  match n with
  | 0 => acc
  | n + 1 => bitReverseAux (code / 2) n (acc * 2 + code % 2)

/-- Reverse the low `n` bits of `code`, as the last loop of `calc_codes` does. -/
def bitReverse (code : Nat) (n : Nat) : Nat :=
  bitReverseAux code n 0

/-- The assignment loop of `calc_codes`: walk the symbols in index order,
handing each one the current `next_code` value of its length and
post-incrementing that entry.  Returns the raw (not yet bit-reversed) codes. -/
def assignCodes (next : Nat → Nat) : List Nat → List HuffmanCode
  | [] => []
  | l :: rest =>
      { code := next l, length := l } ::
        assignCodes (fun bl => if bl = l then next bl + 1 else next bl) rest

/-- `calc_codes` from `src/huffman.rs`: canonical codes from code lengths,
bit-reversed for LSB-first emission. -/
def calc_codes (lengths : List Nat) : List HuffmanCode :=
  (assignCodes (nextCode0 lengths) lengths).map
    (fun hc => { code := bitReverse hc.code hc.length, length := hc.length })

/-! ### `gen_lengths` (length-limited code lengths via package-merge)

`gen_lengths` in `src/huffman.rs` computes, in `out`, a code length for each
weight.  The `VecDeque<Package>` values are kept heaviest-at-front /
lightest-at-back; Rust's `sort_by_key(Reverse(weight))` is a stable
descending sort.  The subtraction `new_level.len() - 1` is a `usize`
subtraction: in a release build it wraps modulo `2^64` (we model that), and
in a debug build it panics when `new_level` is empty; either way the
all-zero-weights case fails (see the C5 theorem), in release mode at the
`curr_packages.pop_back().unwrap()`, which we model as `none`. -/

/-- A `Package` from `gen_lengths`: a weight and the indices it contains. -/
structure Package where
  weight : Nat
  contents : List Nat
deriving DecidableEq, Repr

/-- Stable insertion into a weight-descending list: the new element passes
over strictly heavier elements and stops in front of the first element of
equal or smaller weight, so elements of equal weight keep their original
order — the behaviour of Rust's stable `sort_by_key(Reverse(weight))`. -/
def insertByWeight (x : Package) : List Package → List Package
  | [] => [x]
  | y :: ys => if x.weight < y.weight then y :: insertByWeight x ys else x :: y :: ys

/-- Stable descending sort by weight (insertion sort; any stable sort with
the same key produces the same list, so this matches `sort_by_key`). -/
def sortByWeightDesc : List Package → List Package
  | [] => []
  | x :: xs => insertByWeight x (sortByWeightDesc xs)

/-- `merge` from `gen_lengths`, transcribed back-to-front: the Rust loop
repeatedly pops the lighter of the two back (lightest) elements and pushes
it to the front of the result, so on the reversed (lightest-first) views it
is a standard merge that prefers `a`'s element exactly when it is strictly
lighter. -/
def mergeAsc : Nat → List Package → List Package → List Package
  | _, [], b => b
  | _, a, [] => a
  | 0, a, _ => a
  | fuel + 1, x :: xs, y :: ys =>
      if x.weight < y.weight then x :: mergeAsc fuel xs (y :: ys)
      else y :: mergeAsc fuel (x :: xs) ys

/-- `merge` on the heaviest-first representation used by `gen_lengths`.
The fuel `a.length + b.length` bounds the number of loop iterations exactly,
so the fuel-exhaustion branch is unreachable. -/
def mergePkgs (a b : List Package) : List Package :=
  (mergeAsc (a.length + b.length) a.reverse b.reverse).reverse

/-- The pairing loop of `package` on the reversed (lightest-first) view:
combine adjacent elements two at a time; a heaviest odd element left over
is dropped, as in the Rust loop that runs `v.len() / 2` times. -/
def pairAsc : List Package → List Package
  | p0 :: p1 :: rest =>
      { weight := p0.weight + p1.weight, contents := p0.contents ++ p1.contents } :: pairAsc rest
  | _ => []

/-- `package` from `gen_lengths`, on the heaviest-first representation. -/
def packagePkgs (v : List Package) : List Package :=
  (pairAsc v.reverse).reverse

/-- Add one unit of code length at each index of `contents`
(the `out[*i] += 1` loop of `gen_lengths`). -/
def bumpLens (out : List Nat) (contents : List Nat) : List Nat :=
  contents.foldl (fun acc i => acc.set i (acc.getD i 0 + 1)) out

/-- The main loop of `gen_lengths`: `while x > 0` with the per-level merge,
the conditional `pop_back().unwrap()` (whose failure is `none`) and the
packaging step.  `x < 2^64` and is halved each iteration, so fuel 64 makes
fuel exhaustion unreachable; we still return `none` on exhaustion so that
nothing can be proved from it. -/
def genLoop (newLevel : List Package) :
    Nat → Nat → Nat → List Package → List Nat → Option (List Nat)
  | fuel, x, levelsLeft, curr, out =>
      if x = 0 then some out
      else match fuel with
      | 0 => none
      | fuel + 1 =>
        let (curr, levelsLeft) :=
          if 0 < levelsLeft then (mergePkgs curr newLevel, levelsLeft - 1) else (curr, levelsLeft)
        match (if x % 2 = 1 then (curr.getLast?).map (fun p => (bumpLens out p.contents, curr.dropLast))
               else some (out, curr)) with
        | none => none
        | some (out, curr) => genLoop newLevel fuel (x / 2) levelsLeft (packagePkgs curr) out

/-- `gen_lengths` from `src/huffman.rs`, with release-mode (wrapping)
semantics for `(new_level.len() - 1) << l`; `none` models the panic of
`pop_back().unwrap()` on an empty deque (reached whenever no weight is
positive). -/
def gen_lengths (weights : List Nat) (l : Nat) : Option (List Nat) :=
  let out := List.replicate weights.length 0
  let newLevel : List Package :=
    sortByWeightDesc ((weights.enum.filter (fun p => p.2 ≠ 0)).map
      (fun p => ({ weight := p.2, contents := [p.1] } : Package)))
  let x := ((newLevel.length + (2 ^ 64 - 1)) % 2 ^ 64) <<< l % 2 ^ 64
  genLoop newLevel 64 x l [] out

/-! ### Canonical-code characterization used by claim C8 -/

/-- The spec's description of canonical code assignment, as a closed formula:
symbol `i` of length `L = lengths[i] ≠ 0` receives the starting code
`next_code[L]` of its length plus the number of earlier symbols of the same
length, bit-reversed within `L` bits; unused symbols receive `(0, 0)`. -/
def canonicalAssignment (lengths : List Nat) : List HuffmanCode :=
  (List.range lengths.length).map (fun i =>
    let L := lengths.getD i 0
    if L = 0 then { code := 0, length := 0 }
    else { code := bitReverse (nextCode0 lengths L + ((lengths.take i).filter (fun l => l = L)).length) L,
           length := L })

lemma assignCodes_eq (rest : List Nat) : ∀ next : Nat → Nat,
    assignCodes next rest =
      (List.range rest.length).map (fun i =>
        { code := next (rest.getD i 0) + ((rest.take i).filter (fun l => l = rest.getD i 0)).length,
          length := rest.getD i 0 }) := by
  induction rest with
  | nil => intro next; simp [assignCodes]
  | cons l rest ih =>
      intro next
      simp only [assignCodes, List.length_cons, List.range_succ_eq_map, List.map_cons, List.map_map]
      congr 1
      rw [ih]
      refine List.map_congr_left (fun i _ => ?_)
      simp only [Function.comp_apply, Nat.succ_eq_add_one, List.getD_cons_succ,
        List.take_succ_cons, List.filter_cons]
      by_cases h : rest.getD i 0 = l
      · simp only [List.getD] at h ⊢
        rw [if_pos h, if_pos (by simp [h.symm])]
        simp only [List.length_cons, HuffmanCode.mk.injEq]
        exact ⟨by omega, trivial⟩
      · simp only [List.getD] at h ⊢
        rw [if_neg h,
          if_neg (by
            simp only [decide_eq_true_eq, ← List.get?_eq_getElem?]
            exact fun hh => h hh.symm)]

/-- C8: for every array of code lengths (0 meaning unused, otherwise at most
15), `calc_codes` assigns codes by the canonical recurrence
`next_code[L] = (next_code[L-1] + count[L-1]) << 1` with `count[0]` treated
as zero, assigns in symbol-index order by post-incrementing
`next_code[length[sym]]`, bit-reverses each code within its length bits, and
every unused symbol ends up with the pair (code 0, length 0). -/
theorem c8_calc_codes_canonical (lengths : List Nat) (_h : ∀ l ∈ lengths, l ≤ 15) :
    calc_codes lengths = canonicalAssignment lengths := by
  unfold calc_codes canonicalAssignment
  rw [assignCodes_eq, List.map_map]
  refine List.map_congr_left (fun i hi => ?_)
  simp only [Function.comp_apply]
  by_cases hL : lengths.getD i 0 = 0
  · rw [if_pos hL, hL]
    rfl
  · rw [if_neg hL]

/-- Witness for C8 at a concrete length array. -/
theorem c8_calc_codes_canonical_witness :
    (∀ l ∈ [2, 0, 3, 0, 3, 2, 2], l ≤ 15) ∧
      calc_codes [2, 0, 3, 0, 3, 2, 2] = canonicalAssignment [2, 0, 3, 0, 3, 2, 2] :=
  ⟨by decide, c8_calc_codes_canonical [2, 0, 3, 0, 3, 2, 2] (by decide)⟩

set_option maxRecDepth 8000 in
/-- C5 (refuting the claimed edge cases, supporting status `code_bug`): with
zero live symbols `gen_lengths` does not return all-zero lengths but fails
(wrapping `new_level.len() - 1` makes the loop pop an empty package deque:
the modelled panic `none`; a debug build already panics at the subtraction),
and with exactly one live symbol it assigns that symbol length 0, not the
length 1 the spec requires. -/
theorem c5_gen_lengths_edge_cases :
    gen_lengths (List.replicate 30 0) 15 = none ∧ gen_lengths [5] 15 = some [0] :=
  ⟨by decide, by decide⟩

/-! ## Dynamic block header (`DeflateWriter::new_dynamic_codes_block` in
`src/deflate.rs`, and the tree-emission routine shared with the splitter)

The run-length-encoding loop over the concatenated literal and distance
code lengths computes `let last_index = rle_of_code_lens.len() - 1` before
testing `!rle_of_code_lens.is_empty()`.  On the very first iteration the
vector is empty, so this `usize` subtraction underflows: a debug build
panics there (modelled by `rleRunsChecked` returning `none`), a release
build wraps modulo `2^64` and never uses the wrapped index because the
emptiness test short-circuits first (modelled by `rleRunsWrap`).  Run
counters are `u8` and are modelled wrapping modulo 256. -/

/-- The run-collecting loop with checked (debug) semantics for
`rle_of_code_lens.len() - 1`: `none` as soon as the subtraction underflows,
i.e. whenever it is evaluated with an empty run vector. -/
def rleRunsCheckedGo : List Nat → List (Nat × Nat) → Option (List (Nat × Nat))
  | [], acc => some acc
  | x :: rest, acc =>
      if acc.length = 0 then none
      else
        let lastIndex := acc.length - 1
        if (acc.getD lastIndex (0, 0)).1 = x then
          rleRunsCheckedGo rest (acc.set lastIndex ((acc.getD lastIndex (0, 0)).1,
            ((acc.getD lastIndex (0, 0)).2 + 1) % 256))
        else rleRunsCheckedGo rest (acc ++ [(x, 1)])

/-- Checked-semantics run collection over a code-length sequence. -/
def rleRunsChecked (xs : List Nat) : Option (List (Nat × Nat)) :=
  rleRunsCheckedGo xs []

/-- The run-collecting loop with release (wrapping) semantics:
`last_index` wraps to `2^64 - 1` on the first iteration but the
`!is_empty()` short circuit keeps it from being used as an index. -/
def rleRunsWrapGo : List Nat → List (Nat × Nat) → List (Nat × Nat)
  | [], acc => acc
  | x :: rest, acc =>
      let lastIndex := (acc.length + (2 ^ 64 - 1)) % 2 ^ 64
      if acc ≠ [] ∧ (acc.getD lastIndex (0, 0)).1 = x then
        rleRunsWrapGo rest (acc.set lastIndex ((acc.getD lastIndex (0, 0)).1,
          ((acc.getD lastIndex (0, 0)).2 + 1) % 256))
      else rleRunsWrapGo rest (acc ++ [(x, 1)])

/-- Release-semantics run collection over a code-length sequence. -/
def rleRunsWrap (xs : List Nat) : List (Nat × Nat) :=
  rleRunsWrapGo xs []

/-- The repaired loop, computing the last index only after the emptiness
test; used to state the amended claim C10. -/
def rleRunsGuardedGo : List Nat → List (Nat × Nat) → List (Nat × Nat)
  | [], acc => acc
  | x :: rest, acc =>
      if acc ≠ [] ∧ (acc.getD (acc.length - 1) (0, 0)).1 = x then
        rleRunsGuardedGo rest (acc.set (acc.length - 1) ((acc.getD (acc.length - 1) (0, 0)).1,
          ((acc.getD (acc.length - 1) (0, 0)).2 + 1) % 256))
      else rleRunsGuardedGo rest (acc ++ [(x, 1)])

/-- Guard-first run collection (the obviously safe variant). -/
def rleRunsGuarded (xs : List Nat) : List (Nat × Nat) :=
  rleRunsGuardedGo xs []

/-- The `val == 0` inner loop of the RLE deflate-encoding: absorb runs of
zeros into 18-codes (length 11..138) and 17-codes (length 3..10), emitting
shorter runs literally.  The fuel is the run length itself, which bounds
the iteration count, so exhaustion is unreachable. -/
def encodeZeroRun : Nat → Nat → List (Nat × Nat × Nat)
  | _, 0 => []
  | 0, _ + 1 => []
  | fuel + 1, n + 1 =>
      if n + 1 ≥ 11 then
        let encodedRun := if n + 1 ≤ 138 then n + 1 else 138
        (18, 7, encodedRun - 11) :: encodeZeroRun fuel (n + 1 - encodedRun)
      else if n + 1 ≥ 3 then [(17, 3, n + 1 - 3)]
      else (0, 0, 0) :: encodeZeroRun fuel n

/-- The `val != 0` inner loop (after the leading literal): absorb repeats of
the previous value into 16-codes (3..6), emitting shorter tails literally. -/
def encodeValTail (val : Nat) : Nat → Nat → List (Nat × Nat × Nat)
  | _, 0 => []
  | 0, _ + 1 => []
  | fuel + 1, n + 1 =>
      if n + 1 ≥ 3 then
        let encodedRun := if n + 1 ≤ 6 then n + 1 else 6
        (16, 2, encodedRun - 3) :: encodeValTail val fuel (n + 1 - encodedRun)
      else (val, 0, 0) :: encodeValTail val fuel n

/-- The `deflate_encode_of_rle` loop of `new_dynamic_codes_block`: turn each
`(value, run length)` into code-length-alphabet symbols with their extra
bits, as `(code, extra bit count, extra bits value)` triples. -/
def deflateEncodeOfRle (runs : List (Nat × Nat)) : List (Nat × Nat × Nat) :=
  runs.flatMap (fun vl =>
    let val := vl.1
    let len := vl.2
    if val = 0 then encodeZeroRun len len
    else (val, 0, 0) :: encodeValTail val (len - 1) (len - 1))

/-- The `count_of_code_len_code` array: how often each of the 19
code-length-alphabet codes occurs in the encoded RLE. -/
def countCodeLenCodes (enc : List (Nat × Nat × Nat)) : List Nat :=
  (List.range 19).map (fun c => (enc.filter (fun t => t.1 = c)).length)

/-- `CODE_LEN_OF_CODE_ORDER` from `new_dynamic_codes_block`: the RFC
permutation in which the 19 code-length code lengths are transmitted. -/
def CODE_LEN_OF_CODE_ORDER : List Nat :=
  [16, 17, 18, 0, 8, 7, 9, 6, 10, 5, 11, 4, 12, 3, 13, 2, 14, 1, 15]

/-- Modelled from the spec: `deflate::create_dynamic_block_header`, called
by the block splitter's `dynamic_header_cost`, is absent from `src/`; per
the spec it is the writer's tree-emission routine "parameterized over a
bit-counter sink, used once in dry-run mode by the splitter and once in
byte-emitting mode by the writer", a pure function of the literal and
distance code lengths.  Its body is therefore translated from the inline
tree emission of `new_dynamic_codes_block` (release semantics for the RLE
loop), producing the sequence of `(bits, bit count)` sink calls from HLIT
up to the last RLE symbol.  `none` models the `gen_lengths` panic. -/
def create_dynamic_block_header (literalCodeLens distanceCodeLens : List Nat) :
    Option (List (Nat × Nat)) := do
  let runs := rleRunsWrap (literalCodeLens ++ distanceCodeLens)
  let enc := deflateEncodeOfRle runs
  let codeLenOfCode ← gen_lengths (countCodeLenCodes enc) 7
  let codeLenTree := calc_codes codeLenOfCode
  let headerFields : List (Nat × Nat) := [(286 - 257, 5), (30 - 1, 5), (19 - 4, 4)]
  let orderWrites := CODE_LEN_OF_CODE_ORDER.map (fun i => (codeLenOfCode.getD i 0, 3))
  let rleWrites := enc.flatMap (fun t =>
    let hc := codeLenTree.getD t.1 { code := 0, length := 0 }
    [(hc.code, hc.length), (t.2.2, t.2.1)])
  pure (headerFields ++ orderWrites ++ rleWrites)

/-- `dynamic_header_cost` from `src/deflate/block_splitter.rs`: run the
shared tree-emission routine with the bit-counting sink
`|_bits, len| res += len`. -/
def dynamic_header_cost (literalCodeLens distanceCodeLens : List Nat) : Option Nat :=
  (create_dynamic_block_header literalCodeLens distanceCodeLens).map
    (fun ws => ws.foldl (fun res w => res + w.2) 0)

/-! ## The bit packer (`DeflateWriter::write_bits`) -/

/-- The mutable bit-packing state of `DeflateWriter`: emitted bytes, the
32-bit accumulation register and the number of filled bits in it. -/
structure BitWriter where
  out : List Nat
  currBytes : Nat
  currFullBits : Nat
deriving DecidableEq, Repr

/-- The `while self.curr_full_bits >= 8` drain loop of `write_bits`: emit
the low byte and shift.  Fuel bounds the iteration count (one per 8 bits). -/
def drainBytes : Nat → BitWriter → BitWriter
  | 0, st => st
  | fuel + 1, st =>
      if st.currFullBits ≥ 8 then
        drainBytes fuel
          { out := st.out ++ [st.currBytes % 256],
            currBytes := st.currBytes / 256,
            currFullBits := st.currFullBits - 8 }
      else st

/-- `write_bits` from `src/deflate.rs`: OR `bits << curr_full_bits` into the
32-bit register (modulo `2^32`), bump the fill count, drain full bytes. -/
def write_bits (st : BitWriter) (bits len : Nat) : BitWriter :=
  drainBytes (st.currFullBits + len)
    { out := st.out,
      currBytes := (st.currBytes ||| (bits <<< st.currFullBits)) % 2 ^ 32,
      currFullBits := st.currFullBits + len }

/-- Total number of bits a writer state has consumed: 8 per emitted byte
plus the bits still waiting in the register. -/
def totalBits (st : BitWriter) : Nat :=
  8 * st.out.length + st.currFullBits

/-- Feed a list of `(bits, len)` sink calls into the bit packer. -/
def foldWrites (st : BitWriter) (ws : List (Nat × Nat)) : BitWriter :=
  ws.foldl (fun st w => write_bits st w.1 w.2) st

/-- The dynamic-header emission of `new_dynamic_codes_block` (everything
from the HLIT field up to the last RLE symbol), as the writer performs it:
the shared routine's sink calls fed to the byte-emitting bit packer. -/
def writerDynamicHeader (st : BitWriter) (literalCodeLens distanceCodeLens : List Nat) :
    Option BitWriter :=
  (create_dynamic_block_header literalCodeLens distanceCodeLens).map (foldWrites st)

/-! ## Theorems for claims C10 and C6 -/

lemma rleRunsWrapGo_eq_guarded (rest : List Nat) : ∀ acc : List (Nat × Nat),
    acc.length + rest.length < 2 ^ 64 →
    rleRunsWrapGo rest acc = rleRunsGuardedGo rest acc := by
  induction rest with
  | nil => intro acc _; rfl
  | cons x rest ih =>
      intro acc hlen
      have hlen' : acc.length + rest.length + 1 < 2 ^ 64 := by
        simp only [List.length_cons] at hlen
        omega
      simp only [rleRunsWrapGo, rleRunsGuardedGo]
      by_cases hne : acc = []
      · subst hne
        rw [if_neg (fun hc => hc.1 rfl), if_neg (fun hc => hc.1 rfl)]
        refine ih _ ?_
        simp only [List.length_append, List.length_cons, List.length_nil] at hlen' ⊢
        omega
      · have h1 : 1 ≤ acc.length := List.length_pos.mpr hne
        have hwrap : (acc.length + (2 ^ 64 - 1)) % 2 ^ 64 = acc.length - 1 := by
          have h2 : acc.length + (2 ^ 64 - 1) = (acc.length - 1) + 2 ^ 64 := by omega
          rw [h2, Nat.add_mod_right, Nat.mod_eq_of_lt (by omega)]
        rw [hwrap]
        by_cases hsame : (acc.getD (acc.length - 1) (0, 0)).1 = x
        · rw [if_pos ⟨hne, hsame⟩, if_pos ⟨hne, hsame⟩]
          refine ih _ ?_
          rw [List.length_set]
          omega
        · rw [if_neg (fun hc => hsame hc.2), if_neg (fun hc => hsame hc.2)]
          refine ih _ ?_
          simp only [List.length_append, List.length_cons, List.length_nil]
          omega

/-- Counterexample for C10: called on the concatenated 286 literal and 30
distance code lengths (here the all-zero vectors), the run-length-encoding
loop evaluates `rle_of_code_lens.len() - 1` on its very first iteration,
where the vector is empty, and the checked subtraction underflows: the
modelled debug-build run panics (`none`) for this input, refuting "this
subtraction never underflows". -/
theorem c10_counterexample :
    rleRunsChecked (List.replicate 286 0 ++ List.replicate 30 0) = none := by
  decide

/-- C10 (amended): for every non-empty input to the run-length-encoding
loop of `new_dynamic_codes_block` (and every call site passes 286 + 30
lengths), the subtraction `rle_of_code_lens.len() - 1` underflows on the
first iteration, so the checked (debug) semantics always panics; under the
release (wrapping) semantics the wrapped index is never used, because the
emptiness test short-circuits first, so the loop computes exactly what the
guard-first variant computes. -/
theorem c10_rle_first_iteration_underflow (xs : List Nat) (hne : xs ≠ [])
    (hlen : xs.length < 2 ^ 64) :
    rleRunsChecked xs = none ∧ rleRunsWrap xs = rleRunsGuarded xs := by
  constructor
  · cases xs with
    | nil => exact absurd rfl hne
    | cons x rest => rfl
  · exact rleRunsWrapGo_eq_guarded xs [] (by simpa using hlen)

/-- Witness for the amended C10 at the concrete all-zero header input. -/
theorem c10_rle_first_iteration_underflow_witness :
    (List.replicate 286 (0 : Nat) ++ List.replicate 30 0) ≠ [] ∧
      rleRunsChecked (List.replicate 286 0 ++ List.replicate 30 0) = none ∧
      rleRunsWrap (List.replicate 286 0 ++ List.replicate 30 0) =
        rleRunsGuarded (List.replicate 286 0 ++ List.replicate 30 0) :=
  ⟨by decide,
    (c10_rle_first_iteration_underflow (List.replicate 286 0 ++ List.replicate 30 0)
      (by decide)
      (by rw [List.length_append, List.length_replicate, List.length_replicate]; norm_num)).1,
    (c10_rle_first_iteration_underflow (List.replicate 286 0 ++ List.replicate 30 0)
      (by decide)
      (by rw [List.length_append, List.length_replicate, List.length_replicate]; norm_num)).2⟩

lemma totalBits_drainBytes (fuel : Nat) : ∀ st : BitWriter,
    totalBits (drainBytes fuel st) = totalBits st := by
  induction fuel with
  | zero => intro st; rfl
  | succ fuel ih =>
      intro st
      simp only [drainBytes]
      by_cases h : st.currFullBits ≥ 8
      · rw [if_pos h, ih]
        simp only [totalBits, List.length_append, List.length_cons, List.length_nil]
        omega
      · rw [if_neg h]

lemma totalBits_write_bits (st : BitWriter) (bits len : Nat) :
    totalBits (write_bits st bits len) = totalBits st + len := by
  unfold write_bits
  rw [totalBits_drainBytes]
  simp only [totalBits]
  omega

lemma totalBits_foldWrites (ws : List (Nat × Nat)) : ∀ st : BitWriter,
    totalBits (foldWrites st ws) = totalBits st + (ws.map Prod.snd).sum := by
  induction ws with
  | nil => intro st; simp [foldWrites]
  | cons w ws ih =>
      intro st
      simp only [foldWrites, List.foldl_cons, List.map_cons, List.sum_cons]
      have := ih (write_bits st w.1 w.2)
      simp only [foldWrites] at this
      rw [this, totalBits_write_bits]
      omega

lemma foldl_add_snd (ws : List (Nat × Nat)) : ∀ a : Nat,
    ws.foldl (fun res w => res + w.2) a = a + (ws.map Prod.snd).sum := by
  induction ws with
  | nil => intro a; simp
  | cons w ws ih =>
      intro a
      simp only [List.foldl_cons, List.map_cons, List.sum_cons, ih (a + w.2)]
      omega

/-- C6: the bit cost the block splitter computes for a dynamic block's tree
description (`dynamic_header_cost`, which runs the shared tree-emission
routine `create_dynamic_block_header` with the bit-counting sink) equals
exactly the number of bits the writer adds to the output stream when it
feeds the same routine's sink calls, for the same literal and distance code
lengths, into its byte-emitting bit packer — from any packer state. -/
theorem c6_header_cost_exact (literalCodeLens distanceCodeLens : List Nat)
    (st st' : BitWriter)
    (h : writerDynamicHeader st literalCodeLens distanceCodeLens = some st') :
    dynamic_header_cost literalCodeLens distanceCodeLens =
      some (totalBits st' - totalBits st) := by
  unfold writerDynamicHeader at h
  unfold dynamic_header_cost
  cases hc : create_dynamic_block_header literalCodeLens distanceCodeLens with
  | none => rw [hc] at h; simp at h
  | some ws =>
      rw [hc] at h
      simp only [Option.map_some'] at h ⊢
      have hst : st' = foldWrites st ws := (Option.some_inj.mp h).symm
      subst hst
      rw [totalBits_foldWrites, foldl_add_snd]
      exact congrArg some (by omega)

/-- Witness for C6 at concrete code-length vectors and the empty packer. -/
theorem c6_header_cost_exact_witness :
    (writerDynamicHeader { out := [], currBytes := 0, currFullBits := 0 } [1, 1] [0] =
        some ((writerDynamicHeader { out := [], currBytes := 0, currFullBits := 0 } [1, 1] [0]).getD
          { out := [], currBytes := 0, currFullBits := 0 })) ∧
      dynamic_header_cost [1, 1] [0] =
        some (totalBits ((writerDynamicHeader { out := [], currBytes := 0, currFullBits := 0 }
            [1, 1] [0]).getD { out := [], currBytes := 0, currFullBits := 0 }) -
          totalBits { out := [], currBytes := 0, currFullBits := 0 }) :=
  ⟨by decide, c6_header_cost_exact [1, 1] [0] _ _ (by decide)⟩

/-! ## Match finder (`RepsTracker` in `src/deflate/lempel_ziv.rs`)

The tracker's constructor precomputes rolling hashes of the first
`HASH_AHEAD = 258` prefixes with checked indexing `s.data[i]`: on inputs
shorter than 258 bytes this indexing panics, which we model by `none`.

`max_len` performs deliberately unchecked reads (`get_unchecked`): its
byte-filter read and its extension-loop reads can touch index
`data.len()` exactly (one byte past the end, see the C3 theorems).  The
value observed by such a read is unspecified; we model it by an arbitrary
oracle byte `g`, and every theorem about the tokenizer quantifies over
`g`, so it holds for every possible content of that memory cell.

The `HashMap<&[u8], VecDeque<usize>>` is an association list from 3-byte
keys to position lists (newest first); a missing key and an empty deque
are observationally identical (both make `get_reps` return no
candidates).  The hash ring `[u32; HASH_WINDOW_SIZE]` is an association
list from `index % HASH_WINDOW_SIZE` to the last value written there,
defaulting to the array's zero initialization. -/

def MAX_REP_LEN : Nat := 258

def MAX_REP_DIST : Nat := 32768

def HASH_WINDOW_SIZE : Nat := 2 <<< 16

def HASH_AHEAD : Nat := MAX_REP_LEN

/-- `BUZHASH_TABLE` from `src/deflate/lempel_ziv.rs` (256 fixed `u32`s). -/
def BUZHASH_TABLE : List Nat :=
  [0x012e00ee, 0x186a4024, 0x1907cb61, 0x11ec7b23, 0x3ad46cc4, 0x71162b15, 0x0e249d5b, 0x4b3da547,
   0x47fcc0ba, 0x23563a52, 0x7ff790f7, 0x2e4fc914, 0x0be8bcb7, 0x46d8f54c, 0x74792284, 0x1b80331e,
   0x41b1ef25, 0x370de29e, 0x7182e115, 0x096b1c25, 0x206405cf, 0x27f90686, 0x1f8cfa96, 0x44a81987,
   0x0b68380a, 0x0ac9b87d, 0x141a7085, 0x1405d28d, 0x65f1bb41, 0x2df529c6, 0x79e53f7f, 0x7ae0b359,
   0x2067b2ac, 0x02f02fb1, 0x6e04c595, 0x7bc101a4, 0x4079bf1e, 0x00cf7d8e, 0x52b73c08, 0x5ea7809b,
   0x2c886d78, 0x2a100e94, 0x1b884f7d, 0x34fc924d, 0x35b645a6, 0x3330a761, 0x707d15cb, 0x6e1066e8,
   0x6b4dd29f, 0x5860b7ae, 0x054ee9d8, 0x4550a270, 0x06d8a15c, 0x17c8c917, 0x5cfdcccc, 0x1a560f8e,
   0x6f039ed3, 0x446356f3, 0x6ace7f3b, 0x14054ec6, 0x7a0c0a9c, 0x35b770e7, 0x19f98813, 0x4ccea734,
   0x0689da7b, 0x43ddc707, 0x39ea8fdc, 0x1d311ad9, 0x245b3011, 0x731c377c, 0x3fb245b0, 0x3bfe0047,
   0x6f7b824f, 0x7a9a56ba, 0x06c7337b, 0x752402c6, 0x6a0e8cd6, 0x2a3646b8, 0x2232dbcb, 0x58bacce9,
   0x312b27c0, 0x348eac94, 0x7f2a0793, 0x16c1d72f, 0x57da0783, 0x1bf77024, 0x4e2bf5ce, 0x6c079746,
   0x1fed0a3a, 0x1edb4ca8, 0x6fa4499f, 0x070157f9, 0x5bb60213, 0x7e754c72, 0x277e084a, 0x646784d4,
   0x4bd17891, 0x314dd4b9, 0x6754d65f, 0x31f34921, 0x5b1cc1cd, 0x7682cc86, 0x66a1c7e4, 0x79bf95bd,
   0x6cce84d3, 0x6bbdaa72, 0x4321e33c, 0x10b8bf51, 0x37c7ef99, 0x59649277, 0x2a697242, 0x4ba110f1,
   0x7b6405b8, 0x2438288e, 0x62337a9b, 0x3f3cd136, 0x68a644fd, 0x51c7ddcd, 0x6cdf1b2e, 0x35a2ae29,
   0x0b9ffe23, 0x2d0304c5, 0x47238bc6, 0x3efa78fa, 0x5318b2bd, 0x7201abba, 0x1a4113d8, 0x2ced6ef3,
   0x6d8e7768, 0x73abfab8, 0x0d7140d8, 0x2ed4f953, 0x79f44b62, 0x0219e80c, 0x0722ad1d, 0x3bb09944,
   0x7d44d7aa, 0x79db81e4, 0x3ae788c6, 0x4ae430f1, 0x45871ecf, 0x53c814ff, 0x352da8b5, 0x0287153e,
   0x5a43275d, 0x40c12a36, 0x7124fddc, 0x5c854523, 0x67ee4e6c, 0x03aabf25, 0x2d6ab386, 0x526c4a86,
   0x43c2a5f8, 0x6695634f, 0x3bcc098f, 0x2c21a9c1, 0x7199aa2a, 0x0901ca9f, 0x08cb9170, 0x14fd90f1,
   0x5876cfcd, 0x6c4748e2, 0x562ea892, 0x5ae69f42, 0x100658c2, 0x1d421d99, 0x48db5d4b, 0x08a79aac,
   0x07ddcb89, 0x18546c37, 0x5649e78b, 0x6a67147f, 0x2fd3e018, 0x70edb23e, 0x672bd731, 0x1b4d2b03,
   0x7b36d2d2, 0x396cc567, 0x5885244a, 0x2aa52cf8, 0x47bb6821, 0x4d2d9be6, 0x2e0e2784, 0x09303310,
   0x59d3ef77, 0x152ec414, 0x14234dc8, 0x5386366e, 0x0d65d415, 0x13b2b09e, 0x1fe7305c, 0x148a6c38,
   0x11c44c99, 0x7983507a, 0x1d2c8710, 0x6e7ba070, 0x0e5ab9b9, 0x43005097, 0x6a2b64b2, 0x0f1de3bb,
   0x6fe4f43e, 0x494cafbe, 0x4c5cc769, 0x201f8b6f, 0x177f0c54, 0x67692ada, 0x10030291, 0x044e6700,
   0x23756fbc, 0x4ac9820b, 0x1a033c94, 0x043a1b13, 0x1e2d39d9, 0x61cef499, 0x591a43ee, 0x70c944e2,
   0x272c5241, 0x050798f6, 0x677fee46, 0x03f3c0aa, 0x73d4256d, 0x56ad1a44, 0x45f49e91, 0x6f55955f,
   0x3ca7427b, 0x762f8e50, 0x3379c13e, 0x07dd347d, 0x7686cafb, 0x6fd6302e, 0x50b29971, 0x61b2775e,
   0x705faab0, 0x36a7a017, 0x4ce101d3, 0x6b3c077d, 0x5ebdc84c, 0x61a794a2, 0x4b5ff558, 0x3c7200c5,
   0x0cfece36, 0x51890909, 0x2e4dc125, 0x5dadd8f9, 0x68a677b8, 0x66e3bff1, 0x787840a5, 0x61f42c94,
   0x7cb2bbe7, 0x57233ff2, 0x5599bd36, 0x4821a50b, 0x7be642fd, 0x4345a74f, 0x67ca7053, 0x351500ba]

/-- `u32::rotate_left`: the rotation count acts modulo 32. -/
def rotl32 (h k : Nat) : Nat :=
  ((h <<< (k % 32)) % 2 ^ 32) ||| (h >>> (32 - k % 32))

/-- `RepsTracker::extend_hash`: `hash.rotate_left(1) ^ BUZHASH_TABLE[b]`. -/
def extend_hash (hash b : Nat) : Nat :=
  rotl32 hash 1 ^^^ BUZHASH_TABLE.getD b 0

/-- Read slot `i % HASH_WINDOW_SIZE` of the hash ring (0 if never written). -/
def ringRead (r : List (Nat × Nat)) (i : Nat) : Nat :=
  ((r.lookup (i % HASH_WINDOW_SIZE)).getD 0)

/-- Write slot `i % HASH_WINDOW_SIZE` of the hash ring (newest write wins). -/
def ringWrite (r : List (Nat × Nat)) (i v : Nat) : List (Nat × Nat) :=
  (i % HASH_WINDOW_SIZE, v) :: r

/-- The 3-byte key `&data[q..q+3]` (every use has `q + 3 <= data.len()`). -/
def gram3 (data : List Nat) (q : Nat) : Nat × Nat × Nat :=
  (data.getD q 0, data.getD (q + 1) 0, data.getD (q + 2) 0)

/-- Look a key up in the reps map; a missing key reads as the empty deque. -/
def repsGet (m : List ((Nat × Nat × Nat) × List Nat)) (k : Nat × Nat × Nat) : List Nat :=
  (m.lookup k).getD []

/-- Update a key of the reps map (the newest binding shadows older ones). -/
def repsSet (m : List ((Nat × Nat × Nat) × List Nat)) (k : Nat × Nat × Nat)
    (v : List Nat) : List ((Nat × Nat × Nat) × List Nat) :=
  (k, v) :: m

/-- The state of `RepsTracker`. -/
structure RepsTracker where
  pos : Nat
  reps : List ((Nat × Nat × Nat) × List Nat)
  toForget : List (Nat × Nat × Nat)
  ring : List (Nat × Nat)
deriving DecidableEq, Repr

/-- The constructor's prefix-hash loop: for `i in 0..HASH_AHEAD`, write
`window_rolling_hash[i+1] = extend_hash(window_rolling_hash[i], data[i])`
with checked indexing; `none` models the index-out-of-bounds panic, hit as
soon as `i` reaches `data.len()`. -/
def buildInitRing (data : List Nat) : Option (List (Nat × Nat)) :=
  (List.range HASH_AHEAD).foldlM (fun r i =>
    match data.get? i with
    | none => none
    | some b => some (ringWrite r (i + 1) (extend_hash (ringRead r i) b))) []

/-- `RepsTracker::new`: zeroed ring, then the prefix-hash loop. -/
def RepsTracker.new (data : List Nat) : Option RepsTracker :=
  (buildInitRing data).map (fun ring =>
    { pos := 0, reps := [], toForget := [], ring := ring })

/-- `RepsTracker::advance`: record the 3-gram at `pos` (when it fits),
extend the rolling hash one byte ahead of the lookahead horizon, step
`pos`, and once more than `MAX_REP_DIST` keys are remembered, forget the
oldest one, dropping its oldest position from the map.  (The source
`unwrap`s the map entry of the forgotten key; the entry always exists and
is non-empty because exactly the remembered window positions live in the
map, as the closed-form invariant below proves.) -/
def RepsTracker.insertStage (data : List Nat) (t : RepsTracker) : RepsTracker :=
  if t.pos + 3 <= data.length then
    let curr := gram3 data t.pos
    { t with reps := repsSet t.reps curr (t.pos :: repsGet t.reps curr),
             toForget := curr :: t.toForget }
  else t

def RepsTracker.hashStage (data : List Nat) (t : RepsTracker) : RepsTracker :=
  if t.pos + HASH_AHEAD < data.length then
    let b := data.getD (t.pos + HASH_AHEAD) 0
    let prevHash := ringRead t.ring (t.pos + HASH_AHEAD)
    { t with ring := ringWrite t.ring (t.pos + HASH_AHEAD + 1) (extend_hash prevHash b) }
  else t

def RepsTracker.evictStage (t : RepsTracker) : RepsTracker :=
  if t.toForget.length > MAX_REP_DIST then
    match t.toForget.getLast? with
    | none => t
    | some tooOld =>
        { t with toForget := t.toForget.dropLast,
                 reps := repsSet t.reps tooOld ((repsGet t.reps tooOld).dropLast) }
  else t

def RepsTracker.advance (data : List Nat) (t : RepsTracker) : RepsTracker :=
  let t := t.insertStage data
  let t := t.hashStage data
  let t := { t with pos := t.pos + 1 }
  t.evictStage

/-- Iterated `advance` from the freshly constructed tracker. -/
def trackerAfter (data : List Nat) : Nat → Option RepsTracker
  | 0 => RepsTracker.new data
  | n + 1 => (trackerAfter data n).map (RepsTracker.advance data)

/-- `RepsTracker::hash_recent_substring`: derive the hash of `data[a..b]`
from the prefix hashes still present in the ring. -/
def hash_recent_substring (ring : List (Nat × Nat)) (a b : Nat) : Nat :=
  rotl32 (ringRead ring a) (b - a) ^^^ ringRead ring b

/-- A `get_unchecked` read of `data`: real bytes in bounds, the oracle `g`
past the end (only index `data.len()` is ever reached, see C3). -/
def readU (data : List Nat) (g : Nat) (i : Nat) : Nat :=
  if i < data.length then data.getD i 0 else g

/-- The byte-by-byte extension loop of `max_len`, starting at `res = 3`:
keep extending while the (unchecked) reads agree, `res < MAX_REP_LEN` and
`pos + res < data.len()`.  The fuel bounds the iterations; `MAX_REP_LEN`
iterations are always enough because `res` starts at 3 and stops at 258. -/
def extendLoop (data : List Nat) (g : Nat) (start pos : Nat) : Nat → Nat → Nat
  | 0, res => res
  | fuel + 1, res =>
      if readU data g (start + res) = readU data g (pos + res) ∧
          res < MAX_REP_LEN ∧ pos + res < data.length then
        extendLoop data g start pos fuel (res + 1)
      else res

/-- `max_len` from `get_reps`: the unchecked first-byte filter, the rolling
hash filter, then the true extension from length 3. -/
def max_len (data : List Nat) (g : Nat) (ring : List (Nat × Nat)) (pos : Nat)
    (start minLenToCare : Nat) : Nat :=
  if readU data g (start + minLenToCare - 1) ≠ readU data g (pos + minLenToCare - 1) then 0
  else if hash_recent_substring ring start (start + minLenToCare) ≠
      hash_recent_substring ring pos (pos + minLenToCare) then 0
  else extendLoop data g start pos MAX_REP_LEN 3

/-- The candidate loop of `get_reps`: walk the deque newest-first, keep a
candidate only when its extended length beats every closer one, and stop
as soon as the maximal length 258 is reached. -/
def getRepsGo (data : List Nat) (g : Nat) (ring : List (Nat × Nat)) (pos : Nat) :
    List Nat → Nat → List (Nat × Nat)
  | [], _ => []
  | start :: rest, longest =>
      let l := max_len data g ring pos start (longest + 1)
      if l > longest then
        (pos - start, l) :: (if l = MAX_REP_LEN then [] else getRepsGo data g ring pos rest l)
      else getRepsGo data g ring pos rest longest

/-- `RepsTracker::get_reps`: no candidates within 3 bytes of the end;
otherwise scan the deque of the current 3-gram. -/
def RepsTracker.get_reps (data : List Nat) (g : Nat) (t : RepsTracker) : List (Nat × Nat) :=
  if t.pos + 3 > data.length then []
  else getRepsGo data g t.ring t.pos (repsGet t.reps (gram3 data t.pos)) 0


/-! ## Optimal parser (`Encoder` in `src/deflate/lempel_ziv.rs`)

`possible_encodings` is the 258-slot ring of the forward DP, modelled as a
function from the slot index to an optional `(token list head, bits)` pair.
A `TokenList` chain (head token plus `Rc` link to its predecessor list) is
a plain Lean list whose head is the most recent token.  The reconstruction
loop at the end of `run` (which `Rc::try_unwrap`s each link) is modelled by
`List.reverse`; its unwraps cannot fail because, as the slot invariant
shows, tokens never cover bytes past the input end, hence at exit every
slot except the consumed one is empty and each link has a single owner. -/

/-- The distinguishable panics of `lempel_ziv`. -/
inductive LzPanic where
  | ctorIndexOob
  | slotEmptyUnwrap
  | tokenCodePanic
  | outOfFuel
deriving DecidableEq, Repr

/-- `Encoder::insert_next`: compute the slot of the position reached after
`next_token`, and fill it when it is empty or strictly beaten.  `none` is
the `size_of_token` panic on an invalid token. -/
def insert_next (slots : Nat → Option (List Token × Nat)) (pos : Nat)
    (currEncoding : List Token) (currSize : Nat) (nextToken : Token) :
    Option (Nat → Option (List Token × Nat)) :=
  let extraLength := nextToken.coverLen
  match size_of_token nextToken with
  | none => none
  | some extraSize =>
      let i := (pos + extraLength) % MAX_REP_LEN
      let shouldInsert : Bool :=
        match slots i with
        | none => true
        | some (_, otherSize) => currSize + extraSize < otherSize
      if shouldInsert then
        some (fun j => if j = i then some (nextToken :: currEncoding, currSize + extraSize)
              else slots j)
      else some slots

/-- Insert one candidate repeat token per `get_reps` result, in order. -/
def insertReps (pos : Nat) (currEncoding : List Token) (currSize : Nat) :
    List (Nat × Nat) → (Nat → Option (List Token × Nat)) →
    Option (Nat → Option (List Token × Nat))
  | [], slots => some slots
  | (dist, len) :: rest, slots =>
      match insert_next slots pos currEncoding currSize (.repeat len dist) with
      | none => none
      | some slots => insertReps pos currEncoding currSize rest slots

/-- The `while self.reps_tracker.pos < self.data.len()` loop of
`Encoder::run`, followed by the final take of slot `data.len() % 258`.
`.error .slotEmptyUnwrap` models the `take().unwrap()` panics; the loop
advances `pos` by one each iteration, so fuel `data.len()` and up makes
`.outOfFuel` unreachable. -/
def runLoop (data : List Nat) (g : Nat) :
    Nat → (Nat → Option (List Token × Nat)) → RepsTracker → Except LzPanic (List Token)
  | fuel, slots, t =>
      if t.pos < data.length then
        match fuel with
        | 0 => .error .outOfFuel
        | fuel + 1 =>
            let i := t.pos % MAX_REP_LEN
            match slots i with
            | none => .error .slotEmptyUnwrap
            | some (currEncoding, currSize) =>
                let slots := fun j => if j = i then none else slots j
                match insert_next slots t.pos currEncoding currSize
                    (.literal (data.getD t.pos 0)) with
                | none => .error .tokenCodePanic
                | some slots =>
                    match insertReps t.pos currEncoding currSize
                        (t.get_reps data g) slots with
                    | none => .error .tokenCodePanic
                    | some slots => runLoop data g fuel slots (t.advance data)
      else
        match slots (t.pos % MAX_REP_LEN) with
        | none => .error .slotEmptyUnwrap
        | some (listHead, _) => .ok listHead.reverse

/-- `Encoder::run` given the constructed tracker: empty data yields no
tokens; otherwise seed slot 1 with the first literal (at size 0), advance
once, and run the DP loop. -/
def Encoder.run (data : List Nat) (g : Nat) (t : RepsTracker) : Except LzPanic (List Token) :=
  if data.length = 0 then .ok []
  else
    let slots : Nat → Option (List Token × Nat) :=
      fun j => if j = 1 then some ([Token.literal (data.getD 0 0)], 0) else none
    runLoop data g (data.length + 1) slots (t.advance data)

/-- `lempel_ziv` from `src/deflate/lempel_ziv.rs`: construct the tracker
(its constructor panics — `.ctorIndexOob` — on inputs shorter than
`HASH_AHEAD` bytes) and run the encoder. -/
def lempel_ziv (data : List Nat) (g : Nat) : Except LzPanic (List Token) :=
  match RepsTracker.new data with
  | none => .error .ctorIndexOob
  | some t => Encoder.run data g t

/-- The byte span covered by a token list (order-independent). -/
def sumCover (tl : List Token) : Nat :=
  (tl.map Token.coverLen).sum

/-- What claim C2 demands of one token emitted at input position `p`:
every `Repeat(l, d)` satisfies `1 ≤ d ≤ p`, `3 ≤ l ≤ 258`,
`p + l ≤ data.len()` and byte-for-byte agreement
`data[p+i] = data[p-d+i]` for `i < l` (the RFC overlap case `l > d` simply
reads later input positions, all below `p + l`). -/
def tokValidAt (data : List Nat) (p : Nat) : Token → Prop
  | .literal _ => True
  | .repeat l d =>
      1 ≤ d ∧ d ≤ p ∧ 3 ≤ l ∧ l ≤ 258 ∧ p + l ≤ data.length ∧
        ∀ i < l, data.getD (p + i) 0 = data.getD (p - d + i) 0

/-- Claim C2's match-correctness predicate for a whole token list, walked
from position `p`: each token is valid at the position reached by the
tokens before it. -/
def validFrom (data : List Nat) : Nat → List Token → Prop
  | _, [] => True
  | p, t :: ts => tokValidAt data p t ∧ validFrom data (p + t.coverLen) ts

/-! ## Closed form of the tracker state (used by claims C2, C3, C7, C9)

After `n` advances the tracker's map and queue remember exactly the last
`min m MAX_REP_DIST` insertion steps, where `m = min n (data.len() - 2)`
counts the steps `p < n` with `p + 3 <= data.len()`.  Insertions happen on
a prefix of the steps and stop two steps before the input end; evictions
stop with them because `to_forget` only shrinks past `MAX_REP_DIST` keys. -/

/-- How many advances so far performed the 3-gram insertion. -/
def insertedCount (data : List Nat) (n : Nat) : Nat := min n (data.length - 2)

/-- The insertion steps still remembered after `n` advances, ascending. -/
def windowList (data : List Nat) (n : Nat) : List Nat :=
  List.range' (insertedCount data n - min (insertedCount data n) MAX_REP_DIST)
    (min (insertedCount data n) MAX_REP_DIST)

/-- Closed form of the reachable tracker states: `pos` counts the advances,
`to_forget` holds the remembered window's 3-grams newest first, and each
key's deque holds exactly the remembered window positions bearing that
3-gram, newest first. -/
def TrackerSpec (data : List Nat) (n : Nat) (t : RepsTracker) : Prop :=
  t.pos = n ∧
  t.toForget = ((windowList data n).map (gram3 data)).reverse ∧
  ∀ k, repsGet t.reps k = ((windowList data n).filter (fun q => gram3 data q = k)).reverse

lemma repsGet_set (m : List ((Nat × Nat × Nat) × List Nat)) (k : Nat × Nat × Nat)
    (v : List Nat) (k' : Nat × Nat × Nat) :
    repsGet (repsSet m k v) k' = if k' = k then v else repsGet m k' := by
  unfold repsGet repsSet
  rw [List.lookup_cons]
  by_cases h : k' = k
  · have hb : (k' == k) = true := beq_iff_eq.mpr h
    simp [hb, h]
  · have hb : (k' == k) = false := beq_false_of_ne h
    simp [hb, h]

lemma windowList_length (data : List Nat) (n : Nat) :
    (windowList data n).length = min (insertedCount data n) MAX_REP_DIST := by
  simp [windowList]

lemma windowList_frozen (data : List Nat) (n : Nat) (h : data.length < n + 3) :
    windowList data (n + 1) = windowList data n := by
  have : insertedCount data (n + 1) = insertedCount data n := by
    unfold insertedCount; omega
  simp [windowList, this]

lemma windowList_active_small (data : List Nat) (n : Nat) (hins : n + 3 ≤ data.length)
    (hsmall : n < MAX_REP_DIST) :
    windowList data (n + 1) = windowList data n ++ [n] := by
  have h1 : insertedCount data n = n := by unfold insertedCount; omega
  have h2 : insertedCount data (n + 1) = n + 1 := by unfold insertedCount; omega
  have h3 : min n MAX_REP_DIST = n := by omega
  have h4 : min (n + 1) MAX_REP_DIST = n + 1 := by unfold MAX_REP_DIST at hsmall ⊢; omega
  rw [windowList, windowList, h1, h2, h3, h4, Nat.sub_self, Nat.sub_self, List.range'_concat]
  simp

lemma windowList_active_big_n (data : List Nat) (n : Nat) (hins : n + 3 ≤ data.length)
    (hbig : 32768 ≤ n) :
    windowList data n = (n - 32768) :: List.range' (n - 32768 + 1) 32767 := by
  have h1 : insertedCount data n = n := by unfold insertedCount; omega
  rw [windowList, h1]
  have h3 : min n MAX_REP_DIST = 32768 := by unfold MAX_REP_DIST; omega
  rw [h3, show (32768 : Nat) = 32767 + 1 from rfl, List.range'_succ]

lemma windowList_active_big_succ (data : List Nat) (n : Nat) (hins : n + 3 ≤ data.length)
    (hbig : 32768 ≤ n) :
    windowList data (n + 1) = List.range' (n - 32768 + 1) 32767 ++ [n] := by
  have h2 : insertedCount data (n + 1) = n + 1 := by unfold insertedCount; omega
  rw [windowList, h2]
  have h4 : min (n + 1) MAX_REP_DIST = 32768 := by unfold MAX_REP_DIST; omega
  rw [h4, show (32768 : Nat) = 32767 + 1 from rfl, List.range'_concat]
  have h6 : n + 1 - (32767 + 1) = n - 32768 + 1 := by omega
  rw [h6]
  have h7 : n - 32768 + 1 + 1 * 32767 = n := by omega
  rw [h7]

lemma hashStage_pos (data : List Nat) (t : RepsTracker) :
    (t.hashStage data).pos = t.pos := by
  unfold RepsTracker.hashStage; split <;> rfl

lemma hashStage_reps (data : List Nat) (t : RepsTracker) :
    (t.hashStage data).reps = t.reps := by
  unfold RepsTracker.hashStage; split <;> rfl

lemma hashStage_toForget (data : List Nat) (t : RepsTracker) :
    (t.hashStage data).toForget = t.toForget := by
  unfold RepsTracker.hashStage; split <;> rfl

lemma trackerSpec_new (data : List Nat) (t : RepsTracker)
    (h : RepsTracker.new data = some t) : TrackerSpec data 0 t := by
  unfold RepsTracker.new at h
  cases hb : buildInitRing data with
  | none => rw [hb] at h; simp at h
  | some r =>
      rw [hb] at h
      simp only [Option.map_some'] at h
      have ht : t = { pos := 0, reps := [], toForget := [], ring := r } :=
        (Option.some_inj.mp h).symm
      subst ht
      refine ⟨rfl, ?_, ?_⟩
      · simp [windowList, insertedCount]
      · intro k
        simp [windowList, insertedCount, repsGet]

lemma trackerSpec_advance (data : List Nat) (n : Nat) (t : RepsTracker)
    (h : TrackerSpec data n t) : TrackerSpec data (n + 1) (t.advance data) := by
  obtain ⟨hp, hf, hr⟩ := h
  have hflen : t.toForget.length = min (insertedCount data n) MAX_REP_DIST := by
    rw [hf]; simp [windowList_length]
  unfold RepsTracker.advance RepsTracker.evictStage
  dsimp only
  by_cases hins : n + 3 ≤ data.length
  · -- a 3-gram is recorded at step n
    have e1 : t.insertStage data =
        { t with reps := repsSet t.reps (gram3 data n) (n :: repsGet t.reps (gram3 data n)),
                 toForget := gram3 data n :: t.toForget } := by
      unfold RepsTracker.insertStage
      rw [hp, if_pos hins]
    have e2pos : ((t.insertStage data).hashStage data).pos = n := by
      rw [hashStage_pos, e1, hp]
    have e2reps : ((t.insertStage data).hashStage data).reps =
        repsSet t.reps (gram3 data n) (n :: repsGet t.reps (gram3 data n)) := by
      rw [hashStage_reps, e1]
    have e2tf : ((t.insertStage data).hashStage data).toForget =
        gram3 data n :: t.toForget := by
      rw [hashStage_toForget, e1]
    have hins2 : insertedCount data n = n := by unfold insertedCount; omega
    rw [e2tf, e2reps, e2pos]
    by_cases hbig : 32768 ≤ n
    · -- window full: the oldest remembered step is evicted
      have hWn := windowList_active_big_n data n hins hbig
      have hWs := windowList_active_big_succ data n hins hbig
      set W := List.range' (n - 32768 + 1) 32767 with hW
      have htf : t.toForget = (W.map (gram3 data)).reverse ++ [gram3 data (n - 32768)] := by
        rw [hf, hWn]; simp
      have hlen2 : (gram3 data n :: t.toForget).length > MAX_REP_DIST := by
        simp only [List.length_cons, hflen, hins2]
        unfold MAX_REP_DIST; omega
      have hlast : (gram3 data n :: t.toForget).getLast? = some (gram3 data (n - 32768)) := by
        rw [htf, ← List.cons_append, List.getLast?_concat]
      rw [if_pos hlen2, hlast]
      dsimp only
      refine ⟨rfl, ?_, ?_⟩
      · -- to_forget: drop the evicted key at the back, push the new one in front
        rw [htf, hWs, ← List.cons_append, List.dropLast_concat]
        simp
      · intro k
        rw [repsGet_set]
        by_cases hkOld : k = gram3 data (n - 32768)
        · rw [if_pos hkOld, repsGet_set]
          by_cases heq : gram3 data (n - 32768) = gram3 data n
          · -- the evicted key coincides with the newly inserted key
            have hk2 : k = gram3 data n := hkOld.trans heq
            rw [if_pos heq, hk2, hr, hWn, hWs]
            have e3 : List.filter (fun q => decide (gram3 data q = gram3 data n))
                ((n - 32768) :: W) =
                (n - 32768) :: List.filter (fun q => decide (gram3 data q = gram3 data n)) W := by
              simp [List.filter_cons, heq]
            have e4 : List.filter (fun q => decide (gram3 data q = gram3 data n)) (W ++ [n]) =
                List.filter (fun q => decide (gram3 data q = gram3 data n)) W ++ [n] := by
              simp [List.filter_append, List.filter_cons]
            rw [e3, e4, List.reverse_cons,
              List.dropLast_cons_of_ne_nil (by simp), List.dropLast_concat]
            simp
          · rw [if_neg heq, hkOld, hr, hWn, hWs]
            have e3 : List.filter (fun q => decide (gram3 data q = gram3 data (n - 32768)))
                ((n - 32768) :: W) =
                (n - 32768) ::
                  List.filter (fun q => decide (gram3 data q = gram3 data (n - 32768))) W := by
              simp [List.filter_cons]
            have e4 : List.filter (fun q => decide (gram3 data q = gram3 data (n - 32768)))
                (W ++ [n]) =
                List.filter (fun q => decide (gram3 data q = gram3 data (n - 32768))) W := by
              have hne : ¬ gram3 data n = gram3 data (n - 32768) := fun hc => heq hc.symm
              simp [List.filter_append, List.filter_cons, hne]
            rw [e3, e4, List.reverse_cons, List.dropLast_concat]
        · rw [if_neg hkOld, repsGet_set]
          by_cases hkNew : k = gram3 data n
          · have hne : ¬ gram3 data (n - 32768) = gram3 data n :=
              fun hc => hkOld (hkNew.trans hc.symm)
            rw [if_pos hkNew, hkNew, hr, hWn, hWs]
            have e3 : List.filter (fun q => decide (gram3 data q = gram3 data n))
                ((n - 32768) :: W) =
                List.filter (fun q => decide (gram3 data q = gram3 data n)) W := by
              simp [List.filter_cons, hne]
            have e4 : List.filter (fun q => decide (gram3 data q = gram3 data n)) (W ++ [n]) =
                List.filter (fun q => decide (gram3 data q = gram3 data n)) W ++ [n] := by
              simp [List.filter_append, List.filter_cons]
            rw [e3, e4]
            simp
          · have hne1 : ¬ gram3 data (n - 32768) = k := fun hc => hkOld hc.symm
            have hne2 : ¬ gram3 data n = k := fun hc => hkNew hc.symm
            rw [if_neg hkNew, hr, hWn, hWs]
            have e3 : List.filter (fun q => decide (gram3 data q = k)) ((n - 32768) :: W) =
                List.filter (fun q => decide (gram3 data q = k)) W := by
              simp [List.filter_cons, hne1]
            have e4 : List.filter (fun q => decide (gram3 data q = k)) (W ++ [n]) =
                List.filter (fun q => decide (gram3 data q = k)) W := by
              simp [List.filter_append, List.filter_cons, hne2]
            rw [e3, e4]
    · -- window not yet full: nothing is evicted
      have hWs := windowList_active_small data n hins (by unfold MAX_REP_DIST; omega)
      have hlen2 : ¬ ((gram3 data n :: t.toForget).length > MAX_REP_DIST) := by
        simp only [List.length_cons, hflen, hins2]
        unfold MAX_REP_DIST at *; omega
      rw [if_neg hlen2]
      refine ⟨rfl, ?_, ?_⟩
      · rw [hf, hWs]
        simp
      · intro k
        rw [repsGet_set]
        by_cases hkNew : k = gram3 data n
        · rw [if_pos hkNew, hkNew, hr, hWs]
          have e4 : List.filter (fun q => decide (gram3 data q = gram3 data n))
              (windowList data n ++ [n]) =
              List.filter (fun q => decide (gram3 data q = gram3 data n))
                (windowList data n) ++ [n] := by
            simp [List.filter_append, List.filter_cons]
          rw [e4]
          simp
        · have hne2 : ¬ gram3 data n = k := fun hc => hkNew hc.symm
          rw [if_neg hkNew, hr, hWs]
          have e4 : List.filter (fun q => decide (gram3 data q = k))
              (windowList data n ++ [n]) =
              List.filter (fun q => decide (gram3 data q = k)) (windowList data n) := by
            simp [List.filter_append, List.filter_cons, hne2]
          rw [e4]
  · -- no insertion this step: the tracker only moves its position
    have e1 : t.insertStage data = t := by
      unfold RepsTracker.insertStage
      rw [hp, if_neg hins]
    have hfroz := windowList_frozen data n (by omega)
    rw [hashStage_toForget, hashStage_reps, hashStage_pos, e1, hp]
    have hlen2 : ¬ (t.toForget.length > MAX_REP_DIST) := by
      rw [hflen]
      unfold MAX_REP_DIST; omega
    rw [if_neg hlen2]
    exact ⟨rfl, by rw [hf, hfroz], fun k => by rw [hr k, hfroz]⟩

/-- The closed form holds at every reachable tracker state. -/
lemma trackerAfter_spec (data : List Nat) (n : Nat) (t : RepsTracker)
    (h : trackerAfter data n = some t) : TrackerSpec data n t := by
  induction n generalizing t with
  | zero => exact trackerSpec_new data t h
  | succ n ih =>
      unfold trackerAfter at h
      cases hb : trackerAfter data n with
      | none => rw [hb] at h; simp at h
      | some t0 =>
          rw [hb] at h
          simp only [Option.map_some'] at h
          have ht : t = t0.advance data := (Option.some_inj.mp h).symm
          subst ht
          exact trackerSpec_advance data n t0 (ih t0 hb)

/-! ## Soundness of `get_reps` (used by claims C2, C3, C7) -/

/-- What one candidate `(dist, length)` reported at position `pos` with the
running best `longest` guarantees. -/
def repOK (data : List Nat) (pos longest : Nat) (dl : Nat × Nat) : Prop :=
  1 ≤ dl.1 ∧ dl.1 ≤ pos ∧ dl.1 ≤ MAX_REP_DIST ∧ 3 ≤ dl.2 ∧ dl.2 ≤ MAX_REP_LEN ∧
    pos + dl.2 ≤ data.length ∧ longest < dl.2 ∧
    ∀ i < dl.2, data.getD (pos + i) 0 = data.getD (pos - dl.1 + i) 0

lemma extendLoop_spec (data : List Nat) (g start pos : Nat) (hsp : start < pos) :
    ∀ (fuel res : Nat), 3 ≤ res → res ≤ MAX_REP_LEN → pos + res ≤ data.length →
    (∀ i, 3 ≤ i → i < res → data.getD (start + i) 0 = data.getD (pos + i) 0) →
    (3 ≤ extendLoop data g start pos fuel res ∧
      extendLoop data g start pos fuel res ≤ MAX_REP_LEN ∧
      pos + extendLoop data g start pos fuel res ≤ data.length ∧
      ∀ i, 3 ≤ i → i < extendLoop data g start pos fuel res →
        data.getD (start + i) 0 = data.getD (pos + i) 0) := by
  intro fuel
  induction fuel with
  | zero => intro res h3 h258 hlen hag; exact ⟨h3, h258, hlen, hag⟩
  | succ fuel ih =>
      intro res h3 h258 hlen hag
      unfold extendLoop
      by_cases hc : readU data g (start + res) = readU data g (pos + res) ∧
          res < MAX_REP_LEN ∧ pos + res < data.length
      · rw [if_pos hc]
        obtain ⟨hceq, hcres, hclen⟩ := hc
        refine ih (res + 1) (by omega) (by omega) (by omega) ?_
        intro i hi3 hilt
        by_cases hi : i = res
        · subst hi
          have h1 : readU data g (start + i) = data.getD (start + i) 0 := by
            unfold readU; rw [if_pos (by omega)]
          have h2 : readU data g (pos + i) = data.getD (pos + i) 0 := by
            unfold readU; rw [if_pos (by omega)]
          rw [← h1, ← h2, hceq]
        · exact hag i hi3 (by omega)
      · rw [if_neg hc]
        exact ⟨h3, h258, hlen, hag⟩

lemma max_len_spec (data : List Nat) (g : Nat) (ring : List (Nat × Nat))
    (pos start m : Nat) (hsp : start < pos) (hpos3 : pos + 3 ≤ data.length)
    (hgram : gram3 data start = gram3 data pos) :
    max_len data g ring pos start m = 0 ∨
    (3 ≤ max_len data g ring pos start m ∧
      max_len data g ring pos start m ≤ MAX_REP_LEN ∧
      pos + max_len data g ring pos start m ≤ data.length ∧
      ∀ i < max_len data g ring pos start m,
        data.getD (start + i) 0 = data.getD (pos + i) 0) := by
  unfold max_len
  by_cases hf1 : readU data g (start + m - 1) ≠ readU data g (pos + m - 1)
  · rw [if_pos hf1]; exact Or.inl rfl
  · rw [if_neg hf1]
    by_cases hf2 : hash_recent_substring ring start (start + m) ≠
        hash_recent_substring ring pos (pos + m)
    · rw [if_pos hf2]; exact Or.inl rfl
    · rw [if_neg hf2]
      right
      have hbase := extendLoop_spec data g start pos hsp MAX_REP_LEN 3 (le_refl 3)
        (by unfold MAX_REP_LEN; omega) hpos3 (fun i hi3 hilt => by omega)
      obtain ⟨hb3, hb258, hblen, hbag⟩ := hbase
      refine ⟨hb3, hb258, hblen, ?_⟩
      intro i hilt
      by_cases hi3 : 3 ≤ i
      · exact hbag i hi3 hilt
      · unfold gram3 at hgram
        have hg0 : data.getD start 0 = data.getD pos 0 := congrArg Prod.fst hgram
        have hg12 := congrArg Prod.snd hgram
        have hg1 : data.getD (start + 1) 0 = data.getD (pos + 1) 0 := congrArg Prod.fst hg12
        have hg2 : data.getD (start + 2) 0 = data.getD (pos + 2) 0 := congrArg Prod.snd hg12
        match i, hi3 with
        | 0, _ => simpa using hg0
        | 1, _ => exact hg1
        | 2, _ => exact hg2
        | i + 3, h => exact absurd (by omega : 3 ≤ i + 3) h

lemma getRepsGo_spec (data : List Nat) (g : Nat) (ring : List (Nat × Nat)) (pos : Nat)
    (hpos3 : pos + 3 ≤ data.length) :
    ∀ (cands : List Nat) (longest : Nat),
    (∀ q ∈ cands, q < pos ∧ pos - q ≤ MAX_REP_DIST ∧ gram3 data q = gram3 data pos) →
    List.Pairwise (fun a b => b < a) cands →
    (longest = 0 ∨ 3 ≤ longest) →
    ((∀ dl ∈ getRepsGo data g ring pos cands longest,
        repOK data pos longest dl ∧ ∃ q ∈ cands, dl.1 = pos - q) ∧
      List.Pairwise (fun a b => a.1 < b.1 ∧ a.2 < b.2)
        (getRepsGo data g ring pos cands longest)) := by
  intro cands
  induction cands with
  | nil => intro longest _ _ _; exact ⟨by simp [getRepsGo], by simp [getRepsGo]⟩
  | cons q rest ih =>
      intro longest hq hpair hl0
      obtain ⟨hqlt, hqdist, hqgram⟩ := hq q (List.mem_cons_self q rest)
      have hrest : ∀ q' ∈ rest, q' < pos ∧ pos - q' ≤ MAX_REP_DIST ∧
          gram3 data q' = gram3 data pos :=
        fun q' hm => hq q' (List.mem_cons_of_mem q hm)
      have hpair' := (List.pairwise_cons.mp hpair).2
      have hqrest := (List.pairwise_cons.mp hpair).1
      unfold getRepsGo
      cases max_len_spec data g ring pos q (longest + 1) hqlt hpos3 hqgram with
      | inl hz =>
          rw [hz, if_neg (by omega)]
          obtain ⟨ihA, ihB⟩ := ih longest hrest hpair' hl0
          exact ⟨fun dl hm => ⟨(ihA dl hm).1, by
            obtain ⟨q', hq', he⟩ := (ihA dl hm).2
            exact ⟨q', List.mem_cons_of_mem q hq', he⟩⟩, ihB⟩
      | inr hok =>
          obtain ⟨h3, h258, hlen, hag⟩ := hok
          by_cases hgt : max_len data g ring pos q (longest + 1) > longest
          · rw [if_pos hgt]
            set l := max_len data g ring pos q (longest + 1) with hldef
            have hheadOK : repOK data pos longest (pos - q, l) := by
              refine ⟨by omega, by omega, hqdist, h3, h258, hlen, hgt, ?_⟩
              intro i hi
              have := hag i hi
              have hqq : pos - (pos - q) = q := by omega
              rw [hqq]
              exact this.symm
            by_cases hmax : l = MAX_REP_LEN
            · rw [if_pos hmax]
              refine ⟨fun dl hm => ?_, ?_⟩
              · rw [List.mem_singleton] at hm
                subst hm
                exact ⟨hheadOK, q, List.mem_cons_self q rest, rfl⟩
              · simp
            · rw [if_neg hmax]
              obtain ⟨ihA, ihB⟩ := ih l hrest hpair' (Or.inr h3)
              refine ⟨fun dl hm => ?_, ?_⟩
              · rcases List.mem_cons.mp hm with hm | hm
                · subst hm
                  exact ⟨hheadOK, q, List.mem_cons_self q rest, rfl⟩
                · obtain ⟨hOK, q', hq', he⟩ := ihA dl hm
                  refine ⟨?_, q', List.mem_cons_of_mem q hq', he⟩
                  obtain ⟨o1, o2, o3, o4, o5, o6, o7, o8⟩ := hOK
                  exact ⟨o1, o2, o3, o4, o5, o6, by omega, o8⟩
              · rw [List.pairwise_cons]
                refine ⟨fun dl hm => ?_, ihB⟩
                obtain ⟨hOK, q', hq', he⟩ := ihA dl hm
                have hq'q : q' < q := hqrest q' hq'
                have hq'pos : q' < pos := (hrest q' hq').1
                constructor
                · rw [he]; omega
                · exact hOK.2.2.2.2.2.2.1
          · rw [if_neg hgt]
            obtain ⟨ihA, ihB⟩ := ih longest hrest hpair' hl0
            exact ⟨fun dl hm => ⟨(ihA dl hm).1, by
              obtain ⟨q', hq', he⟩ := (ihA dl hm).2
              exact ⟨q', List.mem_cons_of_mem q hq', he⟩⟩, ihB⟩

/-- Everything `get_reps` returns at a reachable tracker state is a sound
candidate: positive distance at most `min(pos, 32768)`, length in `[3,258]`
not running past the input end, byte-for-byte agreement, and the candidate
list has strictly increasing distances and strictly increasing lengths. -/
lemma get_reps_spec (data : List Nat) (g n : Nat) (t : RepsTracker)
    (hspec : TrackerSpec data n t) :
    (∀ dl ∈ t.get_reps data g, repOK data n 0 dl) ∧
    List.Pairwise (fun a b => a.1 < b.1 ∧ a.2 < b.2) (t.get_reps data g) := by
  obtain ⟨hp, hf, hr⟩ := hspec
  unfold RepsTracker.get_reps
  rw [hp]
  by_cases hend : n + 3 > data.length
  · rw [if_pos hend]
    exact ⟨by simp, by simp⟩
  · rw [if_neg hend]
    have hpos3 : n + 3 ≤ data.length := by omega
    rw [hr]
    have hM : insertedCount data n = n := by unfold insertedCount; omega
    have hcand : ∀ q ∈ ((windowList data n).filter
        (fun q => gram3 data q = gram3 data n)).reverse,
        q < n ∧ n - q ≤ MAX_REP_DIST ∧ gram3 data q = gram3 data n := by
      intro q hq
      rw [List.mem_reverse, List.mem_filter] at hq
      obtain ⟨hqw, hqg⟩ := hq
      have hrange : (insertedCount data n - min (insertedCount data n) MAX_REP_DIST) ≤ q ∧
          q < (insertedCount data n - min (insertedCount data n) MAX_REP_DIST) +
            min (insertedCount data n) MAX_REP_DIST := by
        exact List.mem_range'_1.mp (by simpa [windowList] using hqw)
      rw [hM] at hrange
      exact ⟨by omega, by omega, by simpa using hqg⟩
    have hpairw : List.Pairwise (fun a b => b < a)
        (((windowList data n).filter (fun q => gram3 data q = gram3 data n)).reverse) := by
      rw [List.pairwise_reverse]
      refine List.Pairwise.filter _ ?_
      rw [windowList]
      exact List.pairwise_lt_range' _ _
    have := getRepsGo_spec data g t.ring n hpos3
      (((windowList data n).filter (fun q => gram3 data q = gram3 data n)).reverse) 0
      hcand hpairw (Or.inl rfl)
    exact ⟨fun dl hm => (this.1 dl hm).1, this.2⟩

/-- C7: at every reachable match-finder state, the candidate sequence
returned by `get_reps` has strictly increasing distances, strictly
increasing match lengths (a candidate is kept only when its extended length
beats every closer candidate's), and every returned length is at least 3,
at most 258, and does not extend past the input end.  (When fewer than 3
bytes remain the sequence is empty and the properties hold vacuously.) -/
theorem c7_get_reps_contract (data : List Nat) (g n : Nat) (t : RepsTracker)
    (h : trackerAfter data n = some t) :
    List.Pairwise (fun a b => a.1 < b.1 ∧ a.2 < b.2) (t.get_reps data g) ∧
    ∀ dl ∈ t.get_reps data g, 3 ≤ dl.2 ∧ dl.2 ≤ 258 ∧ t.pos + dl.2 ≤ data.length := by
  have hs := trackerAfter_spec data n t h
  have hg := get_reps_spec data g n t hs
  refine ⟨hg.2, fun dl hm => ?_⟩
  have := hg.1 dl hm
  obtain ⟨_, _, _, h4, h5, h6, _, _⟩ := this
  exact ⟨h4, h5, by rw [hs.1]; exact h6⟩

/-- A concrete 258-byte input with period 7, for the C7 witness. -/
def c7data : List Nat := (List.range 258).map (fun i => i % 7)

/-- The tracker reached on `c7data` after 7 advances. -/
def c7tracker : RepsTracker :=
  (trackerAfter c7data 7).getD { pos := 0, reps := [], toForget := [], ring := [] }

set_option maxRecDepth 100000 in
/-- Witness for C7 at a concrete reachable state with a real candidate. -/
theorem c7_get_reps_contract_witness :
    trackerAfter c7data 7 = some c7tracker ∧
      (List.Pairwise (fun a b => a.1 < b.1 ∧ a.2 < b.2) (c7tracker.get_reps c7data 0) ∧
        ∀ dl ∈ c7tracker.get_reps c7data 0,
          3 ≤ dl.2 ∧ dl.2 ≤ 258 ∧ c7tracker.pos + dl.2 ≤ c7data.length) :=
  ⟨rfl, c7_get_reps_contract c7data 0 7 c7tracker rfl⟩

/-! ## Read-index instrumentation of the match finder (claim C3)

`hashInitReadIndices` lists the indices the constructor's prefix-hash loop
reads (`data[i]` for `i in 0..HASH_AHEAD`, independent of the input
length); `getRepsReads` mirrors the control flow of `get_reps` and collects
the index of every `get_unchecked` read that `max_len` performs. -/

/-- The indices read (with checked indexing) by the constructor's loop. -/
def hashInitReadIndices : List Nat := List.range HASH_AHEAD

/-- The indices of the unchecked reads of the extension loop: each
iteration reads `start + res` and `pos + res` before deciding whether to
continue. -/
def extendLoopReads (data : List Nat) (g : Nat) (start pos : Nat) : Nat → Nat → List Nat
  | 0, _ => []
  | fuel + 1, res =>
      (start + res) :: (pos + res) ::
        (if readU data g (start + res) = readU data g (pos + res) ∧
            res < MAX_REP_LEN ∧ pos + res < data.length then
          extendLoopReads data g start pos fuel (res + 1)
        else [])

/-- The indices of the unchecked reads of one `max_len` call: the two
first-byte-filter reads, then (when both filters pass) the extension
loop's reads. -/
def maxLenReads (data : List Nat) (g : Nat) (ring : List (Nat × Nat)) (pos : Nat)
    (start minLenToCare : Nat) : List Nat :=
  (start + minLenToCare - 1) :: (pos + minLenToCare - 1) ::
    (if readU data g (start + minLenToCare - 1) ≠ readU data g (pos + minLenToCare - 1) then []
     else if hash_recent_substring ring start (start + minLenToCare) ≠
         hash_recent_substring ring pos (pos + minLenToCare) then []
     else extendLoopReads data g start pos MAX_REP_LEN 3)

/-- The unchecked reads of the whole `get_reps` candidate loop. -/
def getRepsReadsGo (data : List Nat) (g : Nat) (ring : List (Nat × Nat)) (pos : Nat) :
    List Nat → Nat → List Nat
  | [], _ => []
  | start :: rest, longest =>
      maxLenReads data g ring pos start (longest + 1) ++
        (let l := max_len data g ring pos start (longest + 1)
         if l > longest then
           (if l = MAX_REP_LEN then [] else getRepsReadsGo data g ring pos rest l)
         else getRepsReadsGo data g ring pos rest longest)

/-- The unchecked reads of one `get_reps` call. -/
def RepsTracker.getRepsReads (data : List Nat) (g : Nat) (t : RepsTracker) : List Nat :=
  if t.pos + 3 > data.length then []
  else getRepsReadsGo data g t.ring t.pos (repsGet t.reps (gram3 data t.pos)) 0

lemma extendLoopReads_le (data : List Nat) (g start pos : Nat) (hsp : start < pos) :
    ∀ (fuel res : Nat), pos + res ≤ data.length →
    ∀ i ∈ extendLoopReads data g start pos fuel res, i ≤ data.length := by
  intro fuel
  induction fuel with
  | zero => intro res _ i hm; simp [extendLoopReads] at hm
  | succ fuel ih =>
      intro res hres i hm
      unfold extendLoopReads at hm
      rw [List.mem_cons, List.mem_cons] at hm
      rcases hm with hm | hm | hm
      · omega
      · omega
      · by_cases hc : readU data g (start + res) = readU data g (pos + res) ∧
            res < MAX_REP_LEN ∧ pos + res < data.length
        · rw [if_pos hc] at hm
          exact ih (res + 1) (by omega) i hm
        · rw [if_neg hc] at hm
          simp at hm

lemma maxLenReads_le (data : List Nat) (g : Nat) (ring : List (Nat × Nat))
    (pos start m : Nat) (hsp : start < pos) (hm1 : 1 ≤ m) (hmlen : pos + m - 1 ≤ data.length)
    (hpos3 : pos + 3 ≤ data.length) :
    ∀ i ∈ maxLenReads data g ring pos start m, i ≤ data.length := by
  intro i hm
  unfold maxLenReads at hm
  rw [List.mem_cons, List.mem_cons] at hm
  rcases hm with hm | hm | hm
  · omega
  · omega
  · rcases hsplit : (if readU data g (start + m - 1) ≠ readU data g (pos + m - 1) then
        ([] : List Nat)
      else if hash_recent_substring ring start (start + m) ≠
          hash_recent_substring ring pos (pos + m) then []
      else extendLoopReads data g start pos MAX_REP_LEN 3) with _ | _
    all_goals rw [hsplit] at hm
    · simp at hm
    · split at hsplit
      · simp at hsplit
      · split at hsplit
        · simp at hsplit
        · rw [← hsplit] at hm
          exact extendLoopReads_le data g start pos hsp MAX_REP_LEN 3 hpos3 i hm

lemma getRepsReadsGo_le (data : List Nat) (g : Nat) (ring : List (Nat × Nat)) (pos : Nat)
    (hpos3 : pos + 3 ≤ data.length) :
    ∀ (cands : List Nat) (longest : Nat),
    (∀ q ∈ cands, q < pos ∧ gram3 data q = gram3 data pos) →
    (longest = 0 ∨ (3 ≤ longest ∧ pos + longest ≤ data.length)) →
    ∀ i ∈ getRepsReadsGo data g ring pos cands longest, i ≤ data.length := by
  intro cands
  induction cands with
  | nil => intro longest _ _ i hm; simp [getRepsReadsGo] at hm
  | cons q rest ih =>
      intro longest hq hl i hm
      obtain ⟨hqlt, hqgram⟩ := hq q (List.mem_cons_self q rest)
      have hrest : ∀ q' ∈ rest, q' < pos ∧ gram3 data q' = gram3 data pos :=
        fun q' hmem => hq q' (List.mem_cons_of_mem q hmem)
      unfold getRepsReadsGo at hm
      rw [List.mem_append] at hm
      rcases hm with hm | hm
      · refine maxLenReads_le data g ring pos q (longest + 1) hqlt (by omega) ?_ hpos3 i hm
        rcases hl with hl | ⟨_, hl⟩ <;> omega
      · rcases max_len_spec data g ring pos q (longest + 1) hqlt hpos3 hqgram with hz | hok
        · rw [hz] at hm
          rw [if_neg (by omega)] at hm
          exact ih longest hrest hl i hm
        · obtain ⟨h3, _, hlen, _⟩ := hok
          by_cases hgt : max_len data g ring pos q (longest + 1) > longest
          · rw [if_pos hgt] at hm
            by_cases hmax : max_len data g ring pos q (longest + 1) = MAX_REP_LEN
            · rw [if_pos hmax] at hm
              simp at hm
            · rw [if_neg hmax] at hm
              exact ih _ hrest (Or.inr ⟨h3, hlen⟩) i hm
          · rw [if_neg hgt] at hm
            exact ih longest hrest hl i hm

lemma buildInitRing_isSome (data : List Nat) :
    (buildInitRing data).isSome ↔ HASH_AHEAD ≤ data.length := by
  have main : ∀ (idxs : List Nat) (r : List (Nat × Nat)),
      ((idxs.foldlM (fun r i =>
        match data.get? i with
        | none => none
        | some b => some (ringWrite r (i + 1) (extend_hash (ringRead r i) b))) r :
          Option (List (Nat × Nat))).isSome ↔ ∀ i ∈ idxs, i < data.length) := by
    intro idxs
    induction idxs with
    | nil => intro r; simp
    | cons i rest ih =>
        intro r
        rw [List.foldlM_cons]
        cases hg : data.get? i with
        | none =>
            have hni : ¬ i < data.length := by
              have := List.get?_eq_none.mp hg
              omega
            simp [List.forall_mem_cons, hni]
        | some b =>
            have hi : i < data.length := by
              by_contra hc
              rw [List.get?_eq_none.mpr (by omega)] at hg
              exact Option.noConfusion hg
            show ((List.foldlM _ (ringWrite r (i + 1) (extend_hash (ringRead r i) b))
              rest : Option (List (Nat × Nat))).isSome ↔ _)
            rw [ih]
            simp [List.forall_mem_cons, hi]
  have hb2 : (buildInitRing data).isSome ↔ ∀ i ∈ List.range HASH_AHEAD, i < data.length :=
    main (List.range HASH_AHEAD) []
  rw [hb2]
  constructor
  · intro h
    have h257 : HASH_AHEAD - 1 ∈ List.range HASH_AHEAD := by
      rw [List.mem_range]; unfold HASH_AHEAD MAX_REP_LEN; omega
    have := h _ h257
    unfold HASH_AHEAD MAX_REP_LEN at *
    omega
  · intro h i hm
    have := List.mem_range.mp hm
    omega

/-- Counterexample for C3: on the empty input (and any input shorter than
258 bytes) the constructor's prefix-hash loop reads index 0, which is not
below the input length, and the checked indexing panics: the modelled
constructor returns `none`. -/
theorem c3_counterexample :
    RepsTracker.new ([] : List Nat) = none ∧
      0 ∈ hashInitReadIndices ∧ ¬ (0 < ([] : List Nat).length) :=
  ⟨rfl, by decide, by decide⟩

/-- C3 (amended): the constructor's prefix-hash loop reads exactly the
indices `0..257` regardless of the input, so it stays in bounds (and the
constructor succeeds) precisely when the input has at least 258 bytes; and
at every reachable tracker state, every unchecked read performed by
`max_len` during `get_reps` uses an index at most `data.len()` — one byte
past the end can be touched, but no index beyond that. -/
theorem c3_match_finder_reads (data : List Nat) (g n : Nat) (t : RepsTracker)
    (ht : trackerAfter data n = some t) :
    ((RepsTracker.new data).isSome ↔ 258 ≤ data.length) ∧
    (258 ≤ data.length → ∀ i ∈ hashInitReadIndices, i < data.length) ∧
    (∀ i ∈ t.getRepsReads data g, i ≤ data.length) := by
  refine ⟨?_, ?_, ?_⟩
  · have hmap : (RepsTracker.new data).isSome = (buildInitRing data).isSome := by
      unfold RepsTracker.new
      cases buildInitRing data <;> rfl
    rw [hmap]
    exact buildInitRing_isSome data
  · intro hlen i hm
    have := List.mem_range.mp hm
    unfold HASH_AHEAD MAX_REP_LEN at this
    omega
  · obtain ⟨hp, hf, hr⟩ := trackerAfter_spec data n t ht
    unfold RepsTracker.getRepsReads
    rw [hp]
    by_cases hend : n + 3 > data.length
    · rw [if_pos hend]
      intro i hm
      simp at hm
    · rw [if_neg hend]
      have hpos3 : n + 3 ≤ data.length := by omega
      rw [hr]
      have hM : insertedCount data n = n := by unfold insertedCount; omega
      refine getRepsReadsGo_le data g t.ring n hpos3 _ 0 ?_ (Or.inl rfl)
      intro q hq
      rw [List.mem_reverse, List.mem_filter] at hq
      obtain ⟨hqw, hqg⟩ := hq
      have hrange : (insertedCount data n - min (insertedCount data n) MAX_REP_DIST) ≤ q ∧
          q < (insertedCount data n - min (insertedCount data n) MAX_REP_DIST) +
            min (insertedCount data n) MAX_REP_DIST :=
        List.mem_range'_1.mp (by simpa [windowList] using hqw)
      rw [hM] at hrange
      exact ⟨by omega, by simpa using hqg⟩

set_option maxRecDepth 100000 in
/-- Witness for the amended C3 at a concrete 258-byte input and a concrete
reachable tracker state. -/
theorem c3_match_finder_reads_witness :
    trackerAfter c7data 7 = some c7tracker ∧
      (((RepsTracker.new c7data).isSome ↔ 258 ≤ c7data.length) ∧
        (258 ≤ c7data.length → ∀ i ∈ hashInitReadIndices, i < c7data.length) ∧
        (∀ i ∈ c7tracker.getRepsReads c7data 0, i ≤ c7data.length)) :=
  ⟨rfl, c3_match_finder_reads c7data 0 7 c7tracker rfl⟩

/-! ## The DP slot invariant of `Encoder::run` (claims C2 and C9) -/

lemma sumCover_nil : sumCover [] = 0 := rfl

lemma sumCover_cons (t : Token) (l : List Token) :
    sumCover (t :: l) = t.coverLen + sumCover l := by
  simp [sumCover]

lemma sumCover_reverse (l : List Token) : sumCover l.reverse = sumCover l := by
  simp [sumCover, List.sum_reverse]

lemma validFrom_append (data : List Nat) (tok : Token) :
    ∀ (xs : List Token) (p0 : Nat), validFrom data p0 xs →
      tokValidAt data (p0 + sumCover xs) tok →
      validFrom data p0 (xs ++ [tok]) := by
  intro xs
  induction xs with
  | nil =>
      intro p0 _ ht
      rw [sumCover_nil, Nat.add_zero] at ht
      exact ⟨ht, trivial⟩
  | cons t ts ih =>
      intro p0 hv ht
      obtain ⟨h1, h2⟩ := hv
      refine ⟨h1, ih (p0 + t.coverLen) h2 ?_⟩
      rw [sumCover_cons] at ht
      rw [show p0 + t.coverLen + sumCover ts = p0 + (t.coverLen + sumCover ts) from by omega]
      exact ht

lemma tableLookup_isSome (tbl : List (Nat × Nat × Nat × Nat)) (v : Nat)
    (h : ∃ r ∈ tbl, v < r.2.1) : (tableLookup tbl v).isSome := by
  induction tbl with
  | nil => simp at h
  | cons r rest ih =>
      obtain ⟨r0, hr0, hv0⟩ := h
      unfold tableLookup
      obtain ⟨s, e, xb, c⟩ := r
      by_cases hc : v < e
      · rw [if_pos hc]; rfl
      · rw [if_neg hc]
        refine ih ⟨r0, ?_, hv0⟩
        rcases List.mem_cons.mp hr0 with hr | hr
        · exfalso
          subst hr
          exact hc hv0
        · exact hr

lemma size_of_token_literal (b : Nat) : size_of_token (.literal b) = some 8 := rfl

lemma size_of_token_rep_isSome (l d : Nat) (hl3 : 3 ≤ l) (hl258 : l ≤ 258)
    (hd1 : 1 ≤ d) (hd : d ≤ 32768) : (size_of_token (.repeat l d)).isSome := by
  have hlen : (deflate_code_of_len l).isSome := by
    refine tableLookup_isSome LEN_TO_CODE l ⟨(258, 259, 0, 285), ?_, (show l < 259 by omega)⟩
    simp [LEN_TO_CODE]
  have hdist : (deflate_code_of_dist d).isSome := by
    refine tableLookup_isSome DIST_TO_CODE d
      ⟨(24577, 32769, 13, 29), ?_, (show d < 32769 by omega)⟩
    simp [DIST_TO_CODE]
  obtain ⟨⟨o1, x1, c1⟩, he1⟩ := Option.isSome_iff_exists.mp hlen
  obtain ⟨⟨o2, x2, c2⟩, he2⟩ := Option.isSome_iff_exists.mp hdist
  simp [size_of_token, he1, he2]

/-- What one `insert_next` call does to the slot ring: given the token's
size, it succeeds, changes no slot other than the target, and the target
ends up either freshly written with the extended list (when the slot was
empty or strictly beaten) or untouched and still occupied. -/
lemma insert_next_char (slots : Nat → Option (List Token × Nat)) (pos : Nat)
    (cur : List Token) (sz : Nat) (tok : Token) (s : Nat)
    (hsz : size_of_token tok = some s) :
    ∃ slots', insert_next slots pos cur sz tok = some slots' ∧
      (∀ j, j ≠ (pos + tok.coverLen) % MAX_REP_LEN → slots' j = slots j) ∧
      (slots' ((pos + tok.coverLen) % MAX_REP_LEN) = some (tok :: cur, sz + s) ∨
        (slots' ((pos + tok.coverLen) % MAX_REP_LEN) =
            slots ((pos + tok.coverLen) % MAX_REP_LEN) ∧
          slots ((pos + tok.coverLen) % MAX_REP_LEN) ≠ none)) := by
  unfold insert_next
  rw [hsz]
  dsimp only
  cases hslot : slots ((pos + tok.coverLen) % MAX_REP_LEN) with
  | none =>
      refine ⟨fun j => if j = (pos + tok.coverLen) % MAX_REP_LEN
          then some (tok :: cur, sz + s) else slots j,
        ?_, fun j hj => if_neg hj, Or.inl (if_pos rfl)⟩
      rfl
  | some other =>
      obtain ⟨otl, osz⟩ := other
      by_cases hlt : sz + s < osz
      · refine ⟨fun j => if j = (pos + tok.coverLen) % MAX_REP_LEN
            then some (tok :: cur, sz + s) else slots j,
          ?_, fun j hj => if_neg hj, Or.inl (if_pos rfl)⟩
        rw [if_pos (decide_eq_true hlt)]
      · refine ⟨slots, ?_, fun j hj => rfl, Or.inr ⟨hslot, by simp⟩⟩
        rw [if_neg (by simp [hlt])]

/-- The per-entry half of the slot invariant at loop position `p`: every
occupied slot, read at the unique position `q` in the current 258-wide
window `[p, p+258)` that maps to it, holds a token list covering exactly
`data[0..q)` whose tokens are all valid at their emission positions. -/
def EntriesOK (data : List Nat) (p : Nat) (slots : Nat → Option (List Token × Nat)) : Prop :=
  ∀ q, p ≤ q → q < p + MAX_REP_LEN → ∀ tl sz, slots (q % MAX_REP_LEN) = some (tl, sz) →
    sumCover tl = q ∧ q ≤ data.length ∧ validFrom data 0 tl.reverse

lemma entriesOK_clear (data : List Nat) (p : Nat)
    (slots : Nat → Option (List Token × Nat)) (h : EntriesOK data p slots) :
    EntriesOK data (p + 1) (fun j => if j = p % MAX_REP_LEN then none else slots j) := by
  intro q hq1 hq2 tl sz hslot
  simp only [] at hslot
  by_cases hj : q % MAX_REP_LEN = p % MAX_REP_LEN
  · rw [if_pos hj] at hslot
    exact Option.noConfusion hslot
  · rw [if_neg hj] at hslot
    simp only [MAX_REP_LEN] at hj hq2 ⊢
    refine h q (by omega) (by simp only [MAX_REP_LEN]; omega) tl sz ?_
    simpa only [MAX_REP_LEN] using hslot

lemma entriesOK_insert (data : List Nat) (p : Nat)
    (slots slots' : Nat → Option (List Token × Nat)) (cur : List Token) (sz : Nat)
    (tok : Token) (s : Nat)
    (h : EntriesOK data (p + 1) slots)
    (hins : insert_next slots p cur sz tok = some slots')
    (hsz : size_of_token tok = some s)
    (hcov : sumCover cur = p)
    (hval : validFrom data 0 cur.reverse)
    (hcl1 : 1 ≤ tok.coverLen) (hcl258 : tok.coverLen ≤ MAX_REP_LEN)
    (hqlen : p + tok.coverLen ≤ data.length)
    (htv : tokValidAt data p tok) :
    EntriesOK data (p + 1) slots' := by
  obtain ⟨slots'', hins', hother, htgt⟩ := insert_next_char slots p cur sz tok s hsz
  have hss : slots' = slots'' := by
    rw [hins] at hins'
    exact Option.some_inj.mp hins'
  subst hss
  intro q hq1 hq2 tl sz2 hslot
  by_cases hj : q % MAX_REP_LEN = (p + tok.coverLen) % MAX_REP_LEN
  · rw [hj] at hslot
    rcases htgt with hnew | ⟨hkeep, _⟩
    · rw [hnew] at hslot
      obtain ⟨htl, _⟩ := Prod.mk.injEq .. ▸ Option.some_inj.mp hslot
      have hq : q = p + tok.coverLen := by
        simp only [MAX_REP_LEN] at hj hq2 hcl258
        omega
      subst hq
      refine ⟨?_, hqlen, ?_⟩
      · rw [← htl, sumCover_cons, hcov]
        omega
      · rw [← htl, List.reverse_cons]
        refine validFrom_append data tok cur.reverse 0 hval ?_
        rw [sumCover_reverse, hcov]
        simpa using htv
    · rw [hkeep] at hslot
      refine h q hq1 hq2 tl sz2 ?_
      rw [hj]
      exact hslot
  · rw [hother _ hj] at hslot
    exact h q hq1 hq2 tl sz2 hslot

lemma insert_next_keeps (slots slots' : Nat → Option (List Token × Nat)) (pos : Nat)
    (cur : List Token) (sz : Nat) (tok : Token) (s : Nat)
    (hsz : size_of_token tok = some s)
    (hins : insert_next slots pos cur sz tok = some slots') :
    ∀ j, slots j ≠ none → slots' j ≠ none := by
  obtain ⟨slots'', hins', hother, htgt⟩ := insert_next_char slots pos cur sz tok s hsz
  have hss : slots' = slots'' := by
    rw [hins] at hins'
    exact Option.some_inj.mp hins'
  subst hss
  intro j hj
  by_cases hjt : j = (pos + tok.coverLen) % MAX_REP_LEN
  · subst hjt
    rcases htgt with hnew | ⟨hkeep, _⟩
    · rw [hnew]; simp
    · rw [hkeep]; exact hj
  · rw [hother _ hjt]; exact hj

lemma insertReps_ok (data : List Nat) (p : Nat) :
    ∀ (cands : List (Nat × Nat)), (∀ dl ∈ cands, repOK data p 0 dl) →
    ∀ (slots : Nat → Option (List Token × Nat)) (cur : List Token) (sz : Nat),
    EntriesOK data (p + 1) slots → sumCover cur = p → validFrom data 0 cur.reverse →
    ∃ slots', insertReps p cur sz cands slots = some slots' ∧
      EntriesOK data (p + 1) slots' ∧ (∀ j, slots j ≠ none → slots' j ≠ none) := by
  intro cands
  induction cands with
  | nil =>
      intro _ slots cur sz hE _ _
      exact ⟨slots, rfl, hE, fun j hj => hj⟩
  | cons dl rest ih =>
      intro hc slots cur sz hE hcov hval
      obtain ⟨d, l⟩ := dl
      have hOK := hc (d, l) (List.mem_cons_self _ _)
      obtain ⟨o1, o2, o3, o4, o5, o6, _, o8⟩ := hOK
      have hsz : (size_of_token (.repeat l d)).isSome :=
        size_of_token_rep_isSome l d o4 (by simpa [MAX_REP_LEN] using o5) o1
          (by simpa [MAX_REP_DIST] using o3)
      obtain ⟨s, hs⟩ := Option.isSome_iff_exists.mp hsz
      obtain ⟨slots₂, hins₂, _, _⟩ := insert_next_char slots p cur sz (.repeat l d) s hs
      have hE₂ : EntriesOK data (p + 1) slots₂ := by
        refine entriesOK_insert data p slots slots₂ cur sz (.repeat l d) s hE hins₂ hs hcov
          hval (by simp [Token.coverLen]; omega) (by simpa [Token.coverLen]) ?_ ?_
        · simpa [Token.coverLen] using o6
        · exact ⟨o1, o2, o4, by simpa [MAX_REP_LEN] using o5, o6, o8⟩
      obtain ⟨slots₃, hreps₃, hE₃, hkeep₃⟩ :=
        ih (fun dl hm => hc dl (List.mem_cons_of_mem _ hm)) slots₂ cur sz hE₂ hcov hval
      refine ⟨slots₃, ?_, hE₃, ?_⟩
      · unfold insertReps
        rw [hins₂]
        exact hreps₃
      · intro j hj
        exact hkeep₃ j (insert_next_keeps slots slots₂ p cur sz (.repeat l d) s hs hins₂ j hj)

lemma runLoop_final (data : List Nat) (g : Nat) (fuel : Nat)
    (slots : Nat → Option (List Token × Nat)) (t : RepsTracker) (p : Nat)
    (ht : t.pos = p) (hnot : ¬ p < data.length) (hp : p ≤ data.length)
    (hE : EntriesOK data p slots) (hocc : slots (p % MAX_REP_LEN) ≠ none) :
    ∃ out, runLoop data g fuel slots t = .ok out ∧ validFrom data 0 out ∧
      sumCover out = data.length := by
  unfold runLoop
  rw [ht, if_neg hnot]
  cases hslot : slots (p % MAX_REP_LEN) with
  | none => exact absurd hslot hocc
  | some pr =>
      obtain ⟨tl, sz⟩ := pr
      have hq := hE p (le_refl p) (by simp only [MAX_REP_LEN]; omega) tl sz hslot
      have hpl : p = data.length := by omega
      refine ⟨tl.reverse, rfl, hq.2.2, ?_⟩
      rw [sumCover_reverse, hq.1, hpl]

lemma runLoop_ok (data : List Nat) (g : Nat) :
    ∀ (fuel p : Nat) (slots : Nat → Option (List Token × Nat)) (t : RepsTracker),
    TrackerSpec data p t → 1 ≤ p → p ≤ data.length → data.length ≤ p + fuel →
    EntriesOK data p slots → slots (p % MAX_REP_LEN) ≠ none →
    ∃ out, runLoop data g fuel slots t = .ok out ∧ validFrom data 0 out ∧
      sumCover out = data.length := by
  intro fuel
  induction fuel with
  | zero =>
      intro p slots t hspec h1 hlen hfuel hE hocc
      exact runLoop_final data g 0 slots t p hspec.1 (by omega) hlen hE hocc
  | succ fuel ih =>
      intro p slots t hspec h1 hlen hfuel hE hocc
      by_cases hplt : p < data.length
      · unfold runLoop
        rw [hspec.1, if_pos hplt]
        dsimp only
        cases hslot : slots (p % MAX_REP_LEN) with
        | none => exact absurd hslot hocc
        | some pr =>
            obtain ⟨cur, sz⟩ := pr
            have hentry := hE p (le_refl p) (by simp only [MAX_REP_LEN]; omega) cur sz hslot
            obtain ⟨hcov, _, hval⟩ := hentry
            have hE₁ : EntriesOK data (p + 1)
                (fun j => if j = p % MAX_REP_LEN then none else slots j) :=
              entriesOK_clear data p slots hE
            obtain ⟨slots₂, hins₂, hother₂, htgt₂⟩ :=
              insert_next_char (fun j => if j = p % MAX_REP_LEN then none else slots j) p
                cur sz (.literal (data.getD p 0)) 8 (size_of_token_literal _)
            have hE₂ : EntriesOK data (p + 1) slots₂ := by
              refine entriesOK_insert data p _ slots₂ cur sz (.literal (data.getD p 0)) 8
                hE₁ hins₂ (size_of_token_literal _) hcov hval (by simp [Token.coverLen])
                (by simp [Token.coverLen, MAX_REP_LEN]) ?_ trivial
              simpa [Token.coverLen] using hplt
            have hocc₂ : slots₂ ((p + 1) % MAX_REP_LEN) ≠ none := by
              have : (p + Token.coverLen (.literal (data.getD p 0))) = p + 1 := rfl
              rw [← this]
              rcases htgt₂ with hnew | ⟨hkeep, hne⟩
              · rw [hnew]; simp
              · rw [hkeep]; exact hne
            have hreps := get_reps_spec data g p t hspec
            obtain ⟨slots₃, hreps₃, hE₃, hkeep₃⟩ :=
              insertReps_ok data p (t.get_reps data g) hreps.1 slots₂ cur sz hE₂ hcov hval
            have hocc₃ : slots₃ ((p + 1) % MAX_REP_LEN) ≠ none :=
              hkeep₃ _ hocc₂
            have hspec' : TrackerSpec data (p + 1) (t.advance data) :=
              trackerSpec_advance data p t hspec
            obtain ⟨out, hrun, hvout, hcout⟩ :=
              ih (p + 1) slots₃ (t.advance data) hspec' (by omega) (by omega) (by omega)
                hE₃ hocc₃
            refine ⟨out, ?_, hvout, hcout⟩
            dsimp only
            rw [hins₂]
            dsimp only
            rw [hreps₃]
            exact hrun
      · exact runLoop_final data g (fuel + 1) slots t p hspec.1 hplt hlen hE hocc

/-- Whenever the tracker constructor succeeds, the whole DP loop of
`Encoder::run` succeeds: every `take().unwrap()` finds an occupied slot,
every token handed to `size_of_token` is in range, the fuel suffices, and
the returned token list is valid and covers the whole input. -/
lemma lempel_ziv_ok (data : List Nat) (g : Nat) (t : RepsTracker)
    (hnew : RepsTracker.new data = some t) :
    ∃ out, lempel_ziv data g = .ok out ∧ validFrom data 0 out ∧
      sumCover out = data.length := by
  have h258 : 258 ≤ data.length := by
    have hmap : (RepsTracker.new data).isSome = (buildInitRing data).isSome := by
      unfold RepsTracker.new
      cases buildInitRing data <;> rfl
    have : (RepsTracker.new data).isSome := by rw [hnew]; rfl
    rw [hmap] at this
    exact (buildInitRing_isSome data).mp this
  have hlen : ¬ data.length = 0 := by omega
  have hspec1 : TrackerSpec data 1 (t.advance data) :=
    trackerSpec_advance data 0 t (trackerSpec_new data t hnew)
  have hE1 : EntriesOK data 1
      (fun j => if j = 1 then some ([Token.literal (data.getD 0 0)], 0) else none) := by
    intro q hq1 hq2 tl sz hslot
    simp only [] at hslot
    by_cases hj : q % MAX_REP_LEN = 1
    · rw [if_pos hj] at hslot
      obtain ⟨htl, _⟩ := Prod.mk.injEq .. ▸ Option.some_inj.mp hslot
      have hq : q = 1 := by
        simp only [MAX_REP_LEN] at hj hq2
        omega
      subst hq
      refine ⟨by rw [← htl]; rfl, by omega, ?_⟩
      rw [← htl]
      exact ⟨trivial, trivial⟩
    · rw [if_neg hj] at hslot
      exact Option.noConfusion hslot
  have hocc1 : (fun j => if j = 1 then
      some ([Token.literal (data.getD 0 0)], 0) else none) (1 % MAX_REP_LEN) ≠ none := by
    simp [MAX_REP_LEN]
  obtain ⟨out, hrun, hvout, hcout⟩ :=
    runLoop_ok data g (data.length + 1) 1 _ (t.advance data) hspec1 (le_refl 1)
      (by omega) (by omega) hE1 hocc1
  refine ⟨out, ?_, hvout, hcout⟩
  unfold lempel_ziv
  rw [hnew]
  unfold Encoder.run
  dsimp only
  rw [if_neg hlen]
  exact hrun

/-- C2: every token list the optimal parser returns satisfies the match
correctness contract: each `Repeat(l, d)` emitted at input position `p`
(the sum of the covered lengths of the preceding tokens) has `1 ≤ d ≤ p`,
`3 ≤ l ≤ 258`, `p + l ≤ data.len()`, and `data[p+i] = data[p-d+i]` for
every `i < l` — the RFC-allowed overlap when `l > d` included, since those
positions stay below `p + l ≤ data.len()`.  Quantified over the oracle
byte `g`, so the property holds whatever value the single past-the-end
unchecked read can observe. -/
theorem c2_match_correctness (data : List Nat) (g : Nat) (toks : List Token)
    (h : lempel_ziv data g = .ok toks) : validFrom data 0 toks := by
  cases hnew : RepsTracker.new data with
  | none =>
      unfold lempel_ziv at h
      rw [hnew] at h
      exact Except.noConfusion h
  | some t =>
      obtain ⟨out, hok, hv, _⟩ := lempel_ziv_ok data g t hnew
      rw [hok] at h
      have : toks = out := (Except.ok.injEq .. ▸ h).symm
      subst this
      exact hv

/-- The slot state of an all-literal parse after `n` bytes: the single
occupied slot `n % 258` holds the literal parse of the consumed prefix. -/
def litSlots (data : List Nat) (n sz : Nat) : Nat → Option (List Token × Nat) :=
  fun j => if j = n % MAX_REP_LEN then
    some (((data.take n).map Token.literal).reverse, sz) else none

/-- On data whose remembered 3-grams are pairwise distinct, a reachable
tracker finds no candidates: the deque of the current 3-gram is empty. -/
lemma get_reps_nil (data : List Nat) (g : Nat) (n : Nat) (t : RepsTracker)
    (hdist : ∀ q r, q < r → r + 2 < data.length → gram3 data q ≠ gram3 data r)
    (h : TrackerSpec data n t) : t.get_reps data g = [] := by
  obtain ⟨hp, -, hr⟩ := h
  unfold RepsTracker.get_reps
  rw [hp]
  by_cases hn : n + 3 > data.length
  · rw [if_pos hn]
  · rw [if_neg hn]
    have hM : insertedCount data n = n := by
      unfold insertedCount
      omega
    have hfilter : (windowList data n).filter
        (fun q => gram3 data q = gram3 data n) = [] := by
      rw [List.filter_eq_nil_iff]
      intro q hq
      have hqlt : q < n := by
        unfold windowList at hq
        have := List.mem_range'_1.mp hq
        omega
      simpa using hdist q n hqlt (by omega)
    rw [hr, hfilter]
    rfl

/-- On data whose 3-grams are pairwise distinct the DP loop keeps exactly
one slot occupied — the all-literal parse of the consumed prefix — and
returns the all-literal parse of the whole input. -/
lemma runLoop_lit (data : List Nat) (g : Nat)
    (hdist : ∀ q r, q < r → r + 2 < data.length → gram3 data q ≠ gram3 data r) :
    ∀ (fuel n sz : Nat) (t : RepsTracker), TrackerSpec data n t →
      1 ≤ n → n ≤ data.length → data.length < n + fuel →
      runLoop data g fuel (litSlots data n sz) t = .ok (data.map Token.literal) := by
  intro fuel
  induction fuel with
  | zero =>
      intro n sz t hspec h1 hle hfuel
      omega
  | succ fuel ih =>
      intro n sz t hspec h1 hle hfuel
      have hread : litSlots data n sz (n % MAX_REP_LEN) =
          some (((data.take n).map Token.literal).reverse, sz) := by
        unfold litSlots
        rw [if_pos rfl]
      by_cases hlt : n < data.length
      · unfold runLoop
        rw [hspec.1, if_pos hlt]
        dsimp only
        rw [hread]
        dsimp only
        have hmod : ¬ (n + 1) % MAX_REP_LEN = n % MAX_REP_LEN := by
          simp only [MAX_REP_LEN]
          omega
        obtain ⟨slots₂, hins₂, hother₂, htgt₂⟩ :=
          insert_next_char
            (fun j => if j = n % MAX_REP_LEN then none else litSlots data n sz j)
            n (((data.take n).map Token.literal).reverse) sz
            (.literal (data.getD n 0)) 8 (size_of_token_literal _)
        have hcov1 : Token.coverLen (.literal (data.getD n 0)) = 1 := rfl
        have hcleared : (fun j => if j = n % MAX_REP_LEN then none
            else litSlots data n sz j)
              ((n + Token.coverLen (.literal (data.getD n 0))) % MAX_REP_LEN) = none := by
          rw [hcov1]
          dsimp only
          rw [if_neg hmod]
          unfold litSlots
          rw [if_neg hmod]
        have htake : ((data.take (n + 1)).map Token.literal).reverse
            = Token.literal (data.getD n 0) :: ((data.take n).map Token.literal).reverse := by
          have hgd : data.getD n 0 = data[n] := by
            rw [List.getD_eq_getElem?_getD, List.getElem?_eq_getElem hlt]
            rfl
          rw [List.take_succ, List.getElem?_eq_getElem hlt, hgd, List.map_append,
            List.reverse_append]
          rfl
        have hslots₂ : slots₂ = litSlots data (n + 1) (sz + 8) := by
          funext j
          by_cases hj : j = (n + Token.coverLen (.literal (data.getD n 0))) % MAX_REP_LEN
          · subst hj
            rcases htgt₂ with hnew | ⟨-, hne⟩
            · rw [hnew]
              unfold litSlots
              rw [hcov1, if_pos rfl, htake]
            · exact absurd hcleared hne
          · rw [hother₂ j hj]
            rw [hcov1] at hj
            unfold litSlots
            rw [if_neg hj]
            by_cases hjn : j = n % MAX_REP_LEN
            · rw [if_pos hjn]
            · rw [if_neg hjn, if_neg hjn]
        have hreps := get_reps_nil data g n t hdist hspec
        rw [hins₂]
        dsimp only
        rw [hreps]
        dsimp only [insertReps]
        rw [hslots₂]
        exact ih (n + 1) (sz + 8) (t.advance data)
          (trackerSpec_advance data n t hspec) (by omega) (by omega) (by omega)
      · have hn : n = data.length := by omega
        unfold runLoop
        rw [hspec.1, if_neg hlt, hread]
        dsimp only
        rw [hn, List.take_length, List.reverse_reverse]

/-- On data with 258 or more bytes and pairwise-distinct 3-grams,
`lempel_ziv` succeeds and emits one literal per input byte. -/
lemma lempel_ziv_lit (data : List Nat) (g : Nat) (t : RepsTracker)
    (hnew : RepsTracker.new data = some t)
    (hdist : ∀ q r, q < r → r + 2 < data.length → gram3 data q ≠ gram3 data r) :
    lempel_ziv data g = .ok (data.map Token.literal) := by
  have h258 : 258 ≤ data.length := by
    have hmap : (RepsTracker.new data).isSome = (buildInitRing data).isSome := by
      unfold RepsTracker.new
      cases buildInitRing data <;> rfl
    have : (RepsTracker.new data).isSome := by rw [hnew]; rfl
    rw [hmap] at this
    exact (buildInitRing_isSome data).mp this
  have hlen0 : ¬ data.length = 0 := by omega
  unfold lempel_ziv
  rw [hnew]
  unfold Encoder.run
  dsimp only
  rw [if_neg hlen0]
  have hinit : (fun j => if j = 1 then some ([Token.literal (data.getD 0 0)], 0) else none)
      = litSlots data 1 0 := by
    funext j
    unfold litSlots
    have h1 : (1 : Nat) % MAX_REP_LEN = 1 := rfl
    rw [h1]
    by_cases hj : j = 1
    · rw [if_pos hj, if_pos hj]
      have h0 : 0 < data.length := by omega
      have htake : ((data.take 1).map Token.literal).reverse
          = [Token.literal (data.getD 0 0)] := by
        have hgd : data.getD 0 0 = data[0] := by
          rw [List.getD_eq_getElem?_getD, List.getElem?_eq_getElem h0]
          rfl
        rw [List.take_succ, List.take_zero, List.getElem?_eq_getElem h0, hgd]
        rfl
      rw [htake]
    · rw [if_neg hj, if_neg hj]
  rw [hinit]
  exact runLoop_lit data g hdist (data.length + 1) 1 0 (t.advance data)
    (trackerSpec_advance data 0 t (trackerSpec_new data t hnew)) (le_refl 1)
    (by omega) (by omega)

/-- The concrete input of the C2 witness: 258 distinct-gram bytes. -/
def c2data : List Nat := (List.range 258).map (fun i => i % 256)

/-- The concrete token list of the C2 witness: its all-literal parse. -/
def c2toks : List Token := c2data.map Token.literal

lemma c2data_length : c2data.length = 258 := by
  simp [c2data]

lemma c2data_getD (i : Nat) (h : i < 258) : c2data.getD i 0 = i % 256 := by
  unfold c2data
  rw [List.getD_eq_getElem?_getD, List.getElem?_map, List.getElem?_range h]
  rfl

lemma c2data_dist : ∀ q r, q < r → r + 2 < c2data.length →
    gram3 c2data q ≠ gram3 c2data r := by
  intro q r hqr hr2
  rw [c2data_length] at hr2
  unfold gram3
  intro he
  have h1 : c2data.getD q 0 = c2data.getD r 0 := congrArg Prod.fst he
  rw [c2data_getD q (by omega), c2data_getD r (by omega)] at h1
  have hq : q % 256 = q := Nat.mod_eq_of_lt (by omega)
  have hrr : r % 256 = r := Nat.mod_eq_of_lt (by omega)
  omega

/-- Witness for C2 at the concrete input `c2data`, discharging the
hypothesis by the closed-form all-literal parse. -/
theorem c2_match_correctness_witness :
    lempel_ziv c2data 0 = .ok c2toks ∧ validFrom c2data 0 c2toks := by
  have hsome : (RepsTracker.new c2data).isSome := by
    have hmap : (RepsTracker.new c2data).isSome = (buildInitRing c2data).isSome := by
      unfold RepsTracker.new
      cases buildInitRing c2data <;> rfl
    rw [hmap]
    refine (buildInitRing_isSome c2data).mpr ?_
    rw [c2data_length]
    decide
  obtain ⟨t, hnew⟩ := Option.isSome_iff_exists.mp hsome
  have h : lempel_ziv c2data 0 = .ok c2toks :=
    lempel_ziv_lit c2data 0 t hnew c2data_dist
  exact ⟨h, c2_match_correctness c2data 0 c2toks h⟩


/-! ## Block splitter (`src/deflate/block_splitter.rs`) and the `deflate`
pipeline (`src/deflate.rs`) -/

/-- `FreqCounter`: how often each literal/length symbol (286 slots) and each
distance symbol (30 slots) occurs in a block. -/
structure FreqCounter where
  literal_count : List Nat
  distance_count : List Nat
deriving Repr

/-- `FreqCounter::new`: all zero except one end-of-block symbol. -/
def FreqCounter.new : FreqCounter :=
  { literal_count := (List.replicate 286 0).set 256 1,
    distance_count := List.replicate 30 0 }

/-- `FreqCounter::count`: bump the token's symbol slots; `none` models the
`deflate_code_of_len`/`deflate_code_of_dist` panics on out-of-range repeats. -/
def FreqCounter.count (c : FreqCounter) : Token → Option FreqCounter
  | .literal v =>
      some { c with literal_count := c.literal_count.set v (c.literal_count.getD v 0 + 1) }
  | .repeat len dist => do
      let (_, _, code) ← deflate_code_of_len len
      let (_, _, codeD) ← deflate_code_of_dist dist
      pure { literal_count := c.literal_count.set code (c.literal_count.getD code 0 + 1),
             distance_count := c.distance_count.set codeD (c.distance_count.getD codeD 0 + 1) }

/-- `block_cost` from `src/deflate/block_splitter.rs`: total bits for the
block body under the given code lengths. -/
def block_cost (counter : FreqCounter) (literalCodeLens distanceCodeLens : List Nat) : Nat :=
  ((counter.literal_count.zip literalCodeLens).map (fun ab => ab.1 * ab.2)).sum +
    ((counter.distance_count.zip distanceCodeLens).map (fun ab => ab.1 * ab.2)).sum

/-- A finished block of the splitter's output. -/
inductive Block where
  | fixedCodes (tokens : List Token)
  | dynamicCodes (tokens : List Token) (literal_code_lens distance_code_lens : List Nat)
deriving Repr

/-- `BlockInProgress` (the Rust field `end` is spelt `stop`). -/
structure BlockInProgress where
  start : Nat
  stop : Nat
  freqs : FreqCounter
  literal_code_lens : List Nat
  distance_code_lens : List Nat
  cost : Nat
  is_dynamic : Bool
deriving Repr

/-- `BlockInProgress::new`: count the chunk's symbols, generate both code
length sets, and price the block dynamically versus with fixed codes;
`none` models the `gen_lengths` panics (in particular on a block with no
distance symbols at all). -/
def BlockInProgress.new (start stop : Nat) (allTokens : List Token) :
    Option BlockInProgress := do
  let tokens := (allTokens.drop start).take (stop - start)
  let counter ← tokens.foldlM FreqCounter.count FreqCounter.new
  let literal_code_lens ← gen_lengths counter.literal_count 15
  let distance_code_lens ← gen_lengths counter.distance_count 15
  let hdr ← dynamic_header_cost literal_code_lens distance_code_lens
  let dynamicCost := block_cost counter literal_code_lens distance_code_lens + hdr
  let fixedCost := 3 + block_cost counter LITERAL_FIXED_CODES DISTANCE_FIXED_CODES
  let costDyn := if dynamicCost < fixedCost then (dynamicCost, true) else (fixedCost, false)
  pure { start := start, stop := stop, freqs := counter,
         literal_code_lens := literal_code_lens,
         distance_code_lens := distance_code_lens,
         cost := costDyn.1, is_dynamic := costDyn.2 }

/-- `BlockInProgress::merge`: sum the two frequency tables, keep a single
end-of-block symbol, and re-price the combined block. -/
def BlockInProgress.merge (b1 b2 : BlockInProgress) : Option BlockInProgress := do
  let literal_count := ((List.range 286).map (fun i =>
      b1.freqs.literal_count.getD i 0 + b2.freqs.literal_count.getD i 0)).set 256 1
  let distance_count := (List.range 30).map (fun i =>
      b1.freqs.distance_count.getD i 0 + b2.freqs.distance_count.getD i 0)
  let freqs : FreqCounter := { literal_count := literal_count, distance_count := distance_count }
  let literal_code_lens ← gen_lengths freqs.literal_count 15
  let distance_code_lens ← gen_lengths freqs.distance_count 15
  let hdr ← dynamic_header_cost literal_code_lens distance_code_lens
  let dynamicCost := block_cost freqs literal_code_lens distance_code_lens + hdr
  let fixedCost := 3 + block_cost freqs LITERAL_FIXED_CODES DISTANCE_FIXED_CODES
  let costDyn := if dynamicCost < fixedCost then (dynamicCost, true) else (fixedCost, false)
  pure { start := b1.start, stop := b2.stop, freqs := freqs,
         literal_code_lens := literal_code_lens,
         distance_code_lens := distance_code_lens,
         cost := costDyn.1, is_dynamic := costDyn.2 }

/-- `build_block`: package a `BlockInProgress` with its token slice. -/
def build_block (b : BlockInProgress) (allTokens : List Token) : Block :=
  let tokens := (allTokens.drop b.start).take (b.stop - b.start)
  if b.is_dynamic then .dynamicCodes tokens b.literal_code_lens b.distance_code_lens
  else .fixedCodes tokens

/-- The chunk starts visited by `(0..tokens.len()).step_by(1024)`. -/
def blockStarts (n : Nat) : List Nat :=
  (List.range ((n + 1023) / 1024)).map (fun k => k * 1024)

/-- `block_split` from `src/deflate/block_splitter.rs`: price each 1024-token
chunk, greedily merge adjacent chunks while the combined price beats the sum,
and flush the block in progress when it does not (and once more at the end). -/
def block_split (tokens : List Token) : Option (List Block) := do
  let st ← (blockStarts tokens.length).foldlM
    (fun (st : List Block × Option BlockInProgress) i => do
      let stop := if i + 1024 < tokens.length then i + 1024 else tokens.length
      let next ← BlockInProgress.new i stop tokens
      match st.2 with
      | none => pure (st.1, some next)
      | some b => do
          let combined ← BlockInProgress.merge b next
          if combined.cost < b.cost + next.cost then
            pure (st.1, some combined)
          else
            pure (st.1 ++ [build_block b tokens], some next))
    ([], none)
  match st.2 with
  | none => pure st.1
  | some b => pure (st.1 ++ [build_block b tokens])

/-- The full `DeflateWriter` state: the bit packer plus the current Huffman
trees and the are-we-inside-a-block flag. -/
structure DeflateWriter where
  bw : BitWriter
  literal_tree : List HuffmanCode
  distance_tree : List HuffmanCode
  in_block : Bool

/-- `DeflateWriter::new`: empty output, empty trees, not in a block. -/
def DeflateWriter.new : DeflateWriter :=
  { bw := { out := [], currBytes := 0, currFullBits := 0 },
    literal_tree := [], distance_tree := [], in_block := false }

/-- `DeflateWriter::write`: emit a token through the current trees; `none`
models the tree-indexing and `deflate_code_of_len`/`dist` panics. -/
def DeflateWriter.write (w : DeflateWriter) : Token → Option DeflateWriter
  | .literal v => do
      let hc ← w.literal_tree[v]?
      pure { w with bw := write_bits w.bw hc.code hc.length }
  | .repeat len dist => do
      let (offset, extraBits, code) ← deflate_code_of_len len
      let hc ← w.literal_tree[code]?
      let bw1 := write_bits (write_bits w.bw hc.code hc.length) offset extraBits
      let (offsetD, extraBitsD, codeD) ← deflate_code_of_dist dist
      let hcD ← w.distance_tree[codeD]?
      pure { w with bw := write_bits (write_bits bw1 hcD.code hcD.length) offsetD extraBitsD }

/-- The end-of-block emission shared by both block starters and `Drop`:
write literal code 256 through the current tree. -/
def DeflateWriter.endOfBlock (w : DeflateWriter) : Option BitWriter := do
  let hc ← w.literal_tree[256]?
  pure (write_bits w.bw hc.code hc.length)

/-- `DeflateWriter::new_fixed_codes_block`: close the open block if any,
write `BFINAL`/`BTYPE=01`, and install the fixed trees. -/
def DeflateWriter.new_fixed_codes_block (w : DeflateWriter) (isFinal : Bool) :
    Option DeflateWriter := do
  let bw0 ← if w.in_block then w.endOfBlock else pure w.bw
  let bw1 := write_bits bw0 (if isFinal then 1 else 0) 1
  let bw2 := write_bits bw1 1 1
  let bw3 := write_bits bw2 0 1
  pure { bw := bw3, literal_tree := calc_codes LITERAL_FIXED_CODES,
         distance_tree := calc_codes DISTANCE_FIXED_CODES, in_block := true }

/-- `DeflateWriter::new_dynamic_codes_block`: close the open block if any,
write `BFINAL`/`BTYPE=10`, emit the dynamic header (HLIT through the RLE of
the code lengths), and install the block trees. -/
def DeflateWriter.new_dynamic_codes_block (w : DeflateWriter) (isFinal : Bool)
    (literalCodeLens distanceCodeLens : List Nat) : Option DeflateWriter := do
  let bw0 ← if w.in_block then w.endOfBlock else pure w.bw
  let bw1 := write_bits bw0 (if isFinal then 1 else 0) 1
  let bw2 := write_bits bw1 0 1
  let bw3 := write_bits bw2 1 1
  let bw4 ← writerDynamicHeader bw3 literalCodeLens distanceCodeLens
  pure { bw := bw4, literal_tree := calc_codes literalCodeLens,
         distance_tree := calc_codes distanceCodeLens, in_block := true }

/-- `DeflateWriter`'s `Drop`: close the last block and flush the partial
byte if any bits remain buffered; returns the emitted byte stream. -/
def DeflateWriter.drop (w : DeflateWriter) : Option (List Nat) := do
  let bw ← w.endOfBlock
  pure (if bw.currFullBits > 0 then bw.out ++ [bw.currBytes % 256] else bw.out)

/-- `deflate` from `src/deflate.rs`: tokenize, split into blocks, write each
block (fixed or dynamic) with `is_last` on the final one, and flush through
`Drop`.  `none` propagates every modelled panic; `g` is the oracle byte of
the tokenizer's single past-the-end unchecked read. -/
def deflate (file : List Nat) (g : Nat) : Option (List Nat) := do
  let tokens ← (lempel_ziv file g).toOption
  let blocks ← block_split tokens
  let w ← blocks.enum.foldlM (fun w ib =>
      match ib.2 with
      | .fixedCodes tokens => do
          let w ← w.new_fixed_codes_block (ib.1 = blocks.length - 1)
          tokens.foldlM DeflateWriter.write w
      | .dynamicCodes tokens ll dl => do
          let w ← w.new_dynamic_codes_block (ib.1 = blocks.length - 1) ll dl
          tokens.foldlM DeflateWriter.write w)
    DeflateWriter.new
  w.drop


/-- C9: (a) the `take().unwrap()` on slot `pos % 258` never panics: on no
input and oracle byte does `lempel_ziv` fail with `slotEmptyUnwrap` — the
loop seeds slot 1 before starting, clears only the slot it consumes, and
always reseeds the next position's slot with the literal extension; (b) an
occupied slot survives `insert_next` untouched unless the new candidate's
total bit cost is strictly smaller, in which case it is overwritten by the
extended encoding at that strictly smaller cost. -/
theorem c9_slot_invariant :
    (∀ (data : List Nat) (g : Nat), lempel_ziv data g ≠ .error .slotEmptyUnwrap) ∧
    (∀ (slots : Nat → Option (List Token × Nat)) (pos : Nat) (cur : List Token)
        (sz : Nat) (tok : Token) (slots₁ : Nat → Option (List Token × Nat))
        (tl₀ : List Token) (sz₀ : Nat),
      insert_next slots pos cur sz tok = some slots₁ →
      slots ((pos + tok.coverLen) % MAX_REP_LEN) = some (tl₀, sz₀) →
      slots₁ ((pos + tok.coverLen) % MAX_REP_LEN) = some (tl₀, sz₀) ∨
        ∃ s, size_of_token tok = some s ∧ sz + s < sz₀ ∧
          slots₁ ((pos + tok.coverLen) % MAX_REP_LEN) = some (tok :: cur, sz + s)) := by
  constructor
  · intro data g
    cases hnew : RepsTracker.new data with
    | none =>
        have he : lempel_ziv data g = .error .ctorIndexOob := by
          unfold lempel_ziv
          rw [hnew]
        rw [he]
        intro hc
        exact LzPanic.noConfusion (Except.error.inj hc)
    | some t =>
        obtain ⟨out, hok, -, -⟩ := lempel_ziv_ok data g t hnew
        rw [hok]
        intro hc
        exact Except.noConfusion hc
  · intro slots pos cur sz tok slots₁ tl₀ sz₀ h hslot
    unfold insert_next at h
    cases hsize : size_of_token tok with
    | none =>
        rw [hsize] at h
        exact Option.noConfusion h
    | some s =>
        rw [hsize] at h
        dsimp only at h
        rw [hslot] at h
        dsimp only at h
        by_cases hlt : sz + s < sz₀
        · rw [if_pos (decide_eq_true hlt)] at h
          refine Or.inr ⟨s, rfl, hlt, ?_⟩
          rw [← Option.some_inj.mp h]
          dsimp only
          rw [if_pos rfl]
        · rw [if_neg (by simp [hlt])] at h
          rw [← Option.some_inj.mp h]
          exact Or.inl hslot

/-- An example slot table for the C9 witness: slot 1 holds cost 10. -/
def c9slots : Nat → Option (List Token × Nat) :=
  fun j => if j = 1 then some ([Token.literal 5], 10) else none

/-- The table after inserting a literal of cost 8 over it. -/
def c9slots₁ : Nat → Option (List Token × Nat) :=
  (insert_next c9slots 0 [] 0 (Token.literal 7)).getD (fun _ => none)

/-- Witness for C9: part (a) at the empty input, part (b) at a concrete
insertion over an occupied slot that the cheaper candidate overwrites. -/
theorem c9_slot_invariant_witness :
    lempel_ziv [] 0 ≠ .error .slotEmptyUnwrap ∧
      (insert_next c9slots 0 [] 0 (Token.literal 7) = some c9slots₁ ∧
        c9slots ((0 + (Token.literal 7).coverLen) % MAX_REP_LEN) =
          some ([Token.literal 5], 10) ∧
        (c9slots₁ ((0 + (Token.literal 7).coverLen) % MAX_REP_LEN) =
            some ([Token.literal 5], 10) ∨
          ∃ s, size_of_token (Token.literal 7) = some s ∧ 0 + s < 10 ∧
            c9slots₁ ((0 + (Token.literal 7).coverLen) % MAX_REP_LEN) =
              some (Token.literal 7 :: [], 0 + s))) :=
  ⟨c9_slot_invariant.1 [] 0, rfl, rfl,
    c9_slot_invariant.2 c9slots 0 [] 0 (Token.literal 7) c9slots₁
      [Token.literal 5] 10 rfl rfl⟩

/-- C1: the round-trip law fails — for the one-byte input `"a"` the encoder
produces no DEFLATE payload at all (whatever the oracle byte): the
tokenizer's constructor reads `data[0..258]` unconditionally and panics, so
no conformant decoder can recover the input from the encoder's output. -/
theorem c1_round_trip (g : Nat) : deflate [97] g = none := rfl

/-- C4: on empty input the encoder does not produce the promised empty
final block (whatever the oracle byte): it panics in `RepsTracker::new`
before reaching the block writer. -/
theorem c4_empty_input (g : Nat) : deflate [] g = none := rfl

end Guyzip
